import Mathlib

/-!
# Blackjack: cards, deck, hands and the round state machine

A shallow embedding of `blackJack.cpp`.

* The intrusive singly linked lists (`Card::next`, `Deck::head`, `Hand::head`)
  are lists of cards, head first.
* A `Card*` is an `Option Card`; `none` is `nullptr`.
* `int` is `Int`.  No hand of the program holds more than 52 cards, so the
  sums stay far away from the limits of a machine `int`.
* Executions that leave defined behaviour (a null pointer dereference, an
  uninitialised array slot) end in an explicit `Fault`.
-/

namespace Blackjack

/-! ## Enumerations -/

/-- The enumerators of `enum Suit` (without the sentinel `SUIT_COUNT`). -/
inductive Suit where
  | HEARTS | DIAMONDS | CLUBS | SPADES
  deriving DecidableEq, Repr

/-- The enumerators of `enum Rank` (without the sentinel `RANK_COUNT`). -/
inductive Rank where
  | TWO | THREE | FOUR | FIVE | SIX | SEVEN | EIGHT | NINE | TEN
  | JACK | QUEEN | KING | ACE
  deriving DecidableEq, Repr

/-- The sentinel `SUIT_COUNT`. -/
def SUIT_COUNT : Nat := 4

/-- The sentinel `RANK_COUNT`. -/
def RANK_COUNT : Nat := 13

/-- The constant `DECK_SIZE = SUIT_COUNT * RANK_COUNT`. -/
def DECK_SIZE : Nat := SUIT_COUNT * RANK_COUNT

/-- The integer value of a `Suit` enumerator. -/
def Suit.toInt : Suit → Int
  | .HEARTS => 0 | .DIAMONDS => 1 | .CLUBS => 2 | .SPADES => 3

/-- The integer value of a `Rank` enumerator. -/
def Rank.toInt : Rank → Int
  | .TWO => 0 | .THREE => 1 | .FOUR => 2 | .FIVE => 3 | .SIX => 4 | .SEVEN => 5
  | .EIGHT => 6 | .NINE => 7 | .TEN => 8 | .JACK => 9 | .QUEEN => 10 | .KING => 11
  | .ACE => 12

/-- The cast `static_cast<Suit>(s)` for a loop counter `s < SUIT_COUNT`. -/
def Suit.fromNat : Nat → Suit
  | 0 => .HEARTS | 1 => .DIAMONDS | 2 => .CLUBS | _ => .SPADES

/-- The cast `static_cast<Rank>(r)` for a loop counter `r < RANK_COUNT`. -/
def Rank.fromNat : Nat → Rank
  | 0 => .TWO | 1 => .THREE | 2 => .FOUR | 3 => .FIVE | 4 => .SIX | 5 => .SEVEN
  | 6 => .EIGHT | 7 => .NINE | 8 => .TEN | 9 => .JACK | 10 => .QUEEN | 11 => .KING
  | _ => .ACE

/-! ## Card -/

/-- The class `Card`: a suit and a rank (the `next` link is the list structure). -/
structure Card where
  suit : Suit
  rank : Rank
  deriving DecidableEq, Repr

/-- The method `Card::getValue`. -/
def Card.getValue (c : Card) : Int :=
  if c.rank = Rank.ACE then 11
  else if Rank.JACK.toInt ≤ c.rank.toInt then 10
  else c.rank.toInt + 2

/-! ## Faults -/

/-- The ways an execution leaves defined behaviour or cannot go on. -/
inductive Fault where
  /-- a null `Card*` is dereferenced (`c->next` in `Hand::addCard`) -/
  | nullDeref
  /-- an array slot is read that was never written (`Deck::shuffle`) -/
  | uninitRead
  /-- a write past the end of `cards[DECK_SIZE]` (`Deck::shuffle`) -/
  | arrayOverflow
  /-- `std::cin` has no further character -/
  | noInput
  /-- the loop budget of the model ran out -/
  | fuel
  deriving DecidableEq, Repr

/-! ## Hand -/

/-- The class `Hand`: the cards of the list at `head`, most recently added first. -/
abbrev Hand := List Card

/-- The method `Hand::addCard`; dereferencing a null `c` is a fault. -/
def Hand.addCard (hand : Hand) (c : Option Card) : Except Fault Hand :=
  match c with
  | none => .error .nullDeref
  | some card => .ok (card :: hand)

/-- The first loop of `Hand::getValue`: accumulates `value` and `aces` over the list. -/
def Hand.sumLoop : List Card → Int → Nat → Int × Nat
  | [], value, aces => (value, aces)
  | current :: next, value, aces =>
    let cardValue := current.getValue
    Hand.sumLoop next (value + cardValue) (if cardValue = 11 then aces + 1 else aces)

/-- The second loop of `Hand::getValue`: `while (value > 21 && aces)`. -/
def Hand.softenLoop : Nat → Int → Int
  | 0, value => value
  | aces + 1, value => if value > 21 then Hand.softenLoop aces (value - 10) else value

/-- The method `Hand::getValue`. -/
def Hand.getValue (hand : Hand) : Int :=
  let r := Hand.sumLoop hand 0 0
  Hand.softenLoop r.2 r.1

/-- The method `Hand::clear`. -/
def Hand.clear (_hand : Hand) : Hand := []

/-- The calls `addCard(&c)` for the cards of a list, first card first. -/
def Hand.addCards (hand : Hand) : List Card → Except Fault Hand
  | [] => .ok hand
  | c :: cs =>
    match Hand.addCard hand (some c) with
    | .error e => .error e
    | .ok hand1 => Hand.addCards hand1 cs

/-- The number `S` of the scoring rule: the sum of the base values of the cards,
every Ace counted as 11. -/
def baseSum (hand : List Card) : Int := (hand.map Card.getValue).sum

/-- The number `a` of the scoring rule: how many Aces are among the cards. -/
def aceCount (hand : List Card) : Nat := hand.countP (fun c => c.rank = Rank.ACE)

/-! ## Deck -/

/-- The class `Deck`: the cards of the list at `head`, the next card to deal first. -/
abbrev Deck := List Card

/-- The private method `Deck::clear`: deletes the nodes one by one. -/
def Deck.clear : Deck → Deck
  | [] => []
  | _ :: next => Deck.clear next

/-- The method `Deck::reset`: clears the deck, then pushes a new card on the head of
the list for every suit `s` (outer loop) and every rank `r` (inner loop). -/
def Deck.reset (deck : Deck) : Deck :=
  (List.range SUIT_COUNT).foldl
    (fun head s =>
      (List.range RANK_COUNT).foldl
        (fun head r => Card.mk (Suit.fromNat s) (Rank.fromNat r) :: head) head)
    (Deck.clear deck)

/-- The method `Deck::deal`: the null card on an empty deck, else the unlinked head. -/
def Deck.deal (deck : Deck) : Option Card × Deck :=
  match deck with
  | [] => (none, [])
  | cardToDeal :: next => (some cardToDeal, next)

/-- The local array `Card* cards[DECK_SIZE]` of `Deck::shuffle` before the first
write: a slot that was never written is `none`. -/
def Deck.freshSlots : List (Option Card) := List.replicate DECK_SIZE none

/-- The first loop of `Deck::shuffle`: `cards[index++] = current` along the list. -/
def Deck.gather : List Card → Nat → List (Option Card) → Except Fault (List (Option Card))
  | [], _, cards => .ok cards
  | current :: next, index, cards =>
    if index < DECK_SIZE then Deck.gather next (index + 1) (cards.set index (some current))
    else .error .arrayOverflow

/-- The call `std::swap(cards[i], cards[j])`. -/
def Deck.swapSlots (cards : List (Option Card)) (i j : Nat) : List (Option Card) :=
  let tmp := cards.getD i none
  (cards.set i (cards.getD j none)).set j tmp

/-- The Fisher-Yates loop of `Deck::shuffle`, entered with the loop variable `i`;
`rnd k` is the value of the `k`-th call of `rand()` made by this shuffle. -/
def Deck.shuffleLoop (rnd : Nat → Nat) : Nat → List (Option Card) → List (Option Card)
  | 0, cards => cards
  | i + 1, cards =>
    let j := rnd (DECK_SIZE - 1 - (i + 1)) % (i + 1 + 1)
    Deck.shuffleLoop rnd i (Deck.swapSlots cards (i + 1) j)

/-- The last loop of `Deck::shuffle`: links `cards[0]`, ..., `cards[DECK_SIZE - 1]`
into a list; a slot that was never written holds no valid pointer. -/
def Deck.relink : List (Option Card) → Except Fault Deck
  | [] => .ok []
  | none :: _ => .error .uninitRead
  | some c :: rest =>
    match Deck.relink rest with
    | .ok deck => .ok (c :: deck)
    | .error e => .error e

/-- The method `Deck::shuffle`. -/
def Deck.shuffle (rnd : Nat → Nat) (deck : Deck) : Except Fault Deck :=
  match Deck.gather deck 0 Deck.freshSlots with
  | .error e => .error e
  | .ok cards => Deck.relink (Deck.shuffleLoop rnd (DECK_SIZE - 1) cards)

/-! ## Player and Dealer -/

/-- The class `Player`. -/
structure Player where
  hand : Hand
  deriving DecidableEq, Repr

/-- The class `Dealer`. -/
structure Dealer where
  hand : Hand
  deriving DecidableEq, Repr

/-- The method `Player::getHandValue`. -/
def Player.getHandValue (player : Player) : Int := Hand.getValue player.hand

/-- The method `Dealer::getHandValue`. -/
def Dealer.getHandValue (dealer : Dealer) : Int := Hand.getValue dealer.hand

/-- The method `Player::hit`. -/
def Player.hit (player : Player) (deck : Deck) : Except Fault (Player × Deck) :=
  let dealt := Deck.deal deck
  match Hand.addCard player.hand dealt.1 with
  | .error e => .error e
  | .ok hand => .ok (⟨hand⟩, dealt.2)

/-- The loop of `Dealer::playTurn` with a budget of iterations.  The first component
lists the dealer and the deck after each draw, the second is the final outcome. -/
def Dealer.playTurnLoop :
    Nat → Dealer → Deck → List (Dealer × Deck) × Except Fault (Dealer × Deck)
  | 0, _, _ => ([], .error .fuel)
  | fuel + 1, dealer, deck =>
    if Hand.getValue dealer.hand < 17 then
      let dealt := Deck.deal deck
      match Hand.addCard dealer.hand dealt.1 with
      | .error e => ([], .error e)
      | .ok hand =>
        let rest := Dealer.playTurnLoop fuel ⟨hand⟩ dealt.2
        ((⟨hand⟩, dealt.2) :: rest.1, rest.2)
    else ([], .ok (dealer, deck))

/-- The method `Dealer::playTurn`.  Every iteration takes a card off the deck or
faults, so `deck.length + 1` iterations are always enough. -/
def Dealer.playTurn (dealer : Dealer) (deck : Deck) : Except Fault (Dealer × Deck) :=
  (Dealer.playTurnLoop (deck.length + 1) dealer deck).2

/-- The dealer and the deck after each draw of `Dealer::playTurn`, in order. -/
def Dealer.playTurnDraws (dealer : Dealer) (deck : Deck) : List (Dealer × Deck) :=
  (Dealer.playTurnLoop (deck.length + 1) dealer deck).1

/-- The dealer's hand after `m` draws from `deck`. -/
def Dealer.handAfter (dealer : Dealer) (deck : Deck) (m : Nat) : Hand :=
  (deck.take m).reverse ++ dealer.hand

/-- The dealer and the deck after each of the first `n` draws from `deck`. -/
def Dealer.drawStates (dealer : Dealer) (deck : Deck) (n : Nat) : List (Dealer × Deck) :=
  (List.range n).map fun m => (⟨Dealer.handAfter dealer deck (m + 1)⟩, deck.drop (m + 1))

/-! ## GameState -/

/-- The enumeration `GameState::State`. -/
inductive State where
  | PLAYING | PLAYER_BLACKJACK | DEALER_BLACKJACK | PLAYER_BUST | DEALER_BUST | ROUND_END
  deriving DecidableEq, Repr

/-- The class `GameState`. -/
structure GameState where
  currentState : State
  deriving DecidableEq, Repr

/-- The method `GameState::checkState`: the updated object and the returned state. -/
def GameState.checkState (gs : GameState) (player : Player) (dealer : Dealer) :
    GameState × State :=
  let gs1 : GameState :=
    if gs.currentState = State.PLAYING then
      if player.getHandValue = 21 then ⟨State.PLAYER_BLACKJACK⟩
      else if dealer.getHandValue = 21 then ⟨State.DEALER_BLACKJACK⟩
      else if player.getHandValue > 21 then ⟨State.PLAYER_BUST⟩
      else if dealer.getHandValue > 21 then ⟨State.DEALER_BUST⟩
      else gs
    else gs
  (gs1, gs1.currentState)

/-- The message printed by `GameState::announceState`, with the values it shows. -/
inductive Announcement where
  | gameContinues
  | playerBlackjack
  | dealerBlackjack
  | playerBusted (playerValue : Int)
  | dealerBusted (dealerValue : Int)
  | playerWins (playerValue dealerValue : Int)
  | dealerWins (dealerValue playerValue : Int)
  | tie (playerValue : Int)
  deriving DecidableEq, Repr

/-- The method `GameState::announceState`. -/
def GameState.announceState (gs : GameState) (player : Player) (dealer : Dealer) :
    Announcement :=
  match gs.currentState with
  | .PLAYING => .gameContinues
  | .PLAYER_BLACKJACK => .playerBlackjack
  | .DEALER_BLACKJACK => .dealerBlackjack
  | .PLAYER_BUST => .playerBusted player.getHandValue
  | .DEALER_BUST => .dealerBusted dealer.getHandValue
  | .ROUND_END =>
    if player.getHandValue > dealer.getHandValue then
      .playerWins player.getHandValue dealer.getHandValue
    else if player.getHandValue < dealer.getHandValue then
      .dealerWins dealer.getHandValue player.getHandValue
    else .tie player.getHandValue

/-! ## Game -/

/-- The class `Game`. -/
structure Game where
  deck : Deck
  player : Player
  dealer : Dealer
  gameState : GameState
  deriving DecidableEq, Repr

/-- The observable steps of a round, in the order in which they happen. -/
inductive Event where
  /-- a card was dealt and added to the player's hand; the game right after it -/
  | dealtPlayer (g : Game)
  /-- a card was dealt and added to the dealer's hand; the game right after it -/
  | dealtDealer (g : Game)
  /-- a call of `checkState` returned this state -/
  | checked (s : State)
  /-- a character was read from `std::cin` -/
  | read (choice : Char)
  /-- the call `dealer.playTurn(deck)` returned -/
  | dealerDone
  /-- the state was forced to `ROUND_END` -/
  | forcedRoundEnd
  /-- a call of `announceState` printed this message -/
  | announced (a : Announcement)
  deriving DecidableEq, Repr

/-- An execution: the events so far and the outcome. -/
structure Exec (α : Type) where
  trace : List Event
  result : Except Fault α

/-- Sequencing of executions: the events are concatenated, a fault ends the run. -/
def Exec.andThen {α β : Type} (x : Exec α) (f : α → Exec β) : Exec β :=
  match x.result with
  | .error e => ⟨x.trace, .error e⟩
  | .ok a => ⟨x.trace ++ (f a).trace, (f a).result⟩

/-- The statement `player.getHand().addCard(deck.deal())`. -/
def Game.dealPlayer (g : Game) : Exec Game :=
  let dealt := Deck.deal g.deck
  match Hand.addCard g.player.hand dealt.1 with
  | .error e => ⟨[], .error e⟩
  | .ok hand =>
    let g1 : Game := { g with deck := dealt.2, player := ⟨hand⟩ }
    ⟨[.dealtPlayer g1], .ok g1⟩

/-- The statement `dealer.getHand().addCard(deck.deal())`. -/
def Game.dealDealer (g : Game) : Exec Game :=
  let dealt := Deck.deal g.deck
  match Hand.addCard g.dealer.hand dealt.1 with
  | .error e => ⟨[], .error e⟩
  | .ok hand =>
    let g1 : Game := { g with deck := dealt.2, dealer := ⟨hand⟩ }
    ⟨[.dealtDealer g1], .ok g1⟩

/-- The statement `player.hit(deck)`. -/
def Game.hit (g : Game) : Exec Game :=
  match Player.hit g.player g.deck with
  | .error e => ⟨[], .error e⟩
  | .ok (player, deck) =>
    let g1 : Game := { g with deck := deck, player := player }
    ⟨[.dealtPlayer g1], .ok g1⟩

/-- The statement `gameState.checkState(player, dealer)`. -/
def Game.check (g : Game) : Exec Game :=
  let r := GameState.checkState g.gameState g.player g.dealer
  ⟨[.checked r.2], .ok { g with gameState := r.1 }⟩

/-- The statement `gameState.announceState(player, dealer)`. -/
def Game.announce (g : Game) : Exec Game :=
  ⟨[.announced (GameState.announceState g.gameState g.player g.dealer)], .ok g⟩

/-- The statement `dealer.playTurn(deck)`. -/
def Game.dealerTurn (g : Game) : Exec Game :=
  let draws : List Event :=
    (Dealer.playTurnDraws g.dealer g.deck).map
      (fun s => Event.dealtDealer { g with deck := s.2, dealer := s.1 })
  match Dealer.playTurn g.dealer g.deck with
  | .error e => ⟨draws, .error e⟩
  | .ok (dealer, deck) => ⟨draws ++ [.dealerDone], .ok { g with deck := deck, dealer := dealer }⟩

/-- The loop `while (true)` of the player's turn in `Game::play`, over the characters
that `std::cin` delivers.  The result says how the loop was left: `true` by `break`
(the player stood), `false` by `return` (the round is over). -/
def Game.playerTurn (g : Game) : List Char → Exec (Game × Bool)
  | [] => ⟨[], .error .noInput⟩
  | choice :: input =>
    Exec.andThen (⟨[.read choice], .ok ()⟩ : Exec Unit) fun _ =>
    if choice = 'h' then
      Exec.andThen (Game.hit g) fun g1 =>
      Exec.andThen (Game.check g1) fun g2 =>
      if g2.gameState.currentState ≠ State.PLAYING then
        Exec.andThen (Game.announce g2) fun g3 => ⟨[], .ok (g3, false)⟩
      else Game.playerTurn g2 input
    else if choice = 's' then ⟨[], .ok (g, true)⟩
    else Game.playerTurn g input

/-- The setup of `Game::play`: state, hands, deck, shuffle. -/
def Game.setup (g : Game) (rnd : Nat → Nat) : Exec Game :=
  let g1 : Game := { g with gameState := ⟨State.PLAYING⟩ }
  let g2 : Game := { g1 with player := ⟨Hand.clear g1.player.hand⟩ }
  let g3 : Game := { g2 with dealer := ⟨Hand.clear g2.dealer.hand⟩ }
  let g4 : Game := { g3 with deck := Deck.reset g3.deck }
  match Deck.shuffle rnd g4.deck with
  | .error e => ⟨[], .error e⟩
  | .ok deck => ⟨[], .ok { g4 with deck := deck }⟩

/-- The four statements of the initial deal of `Game::play`. -/
def Game.initialDeal (g : Game) : Exec Game :=
  Exec.andThen (Game.dealPlayer g) fun g1 =>
  Exec.andThen (Game.dealDealer g1) fun g2 =>
  Exec.andThen (Game.dealPlayer g2) fun g3 =>
  Game.dealDealer g3

/-- The part of `Game::play` after the player's turn was left by `break`. -/
def Game.finish (g : Game) : Exec Game :=
  Exec.andThen (Game.dealerTurn g) fun g1 =>
  Exec.andThen (Game.check g1) fun g2 =>
  if g2.gameState.currentState = State.PLAYING then
    Exec.andThen
      (⟨[.forcedRoundEnd], .ok { g2 with gameState := ⟨State.ROUND_END⟩ }⟩ : Exec Game)
      Game.announce
  else Game.announce g2

/-- The method `Game::play`: `rnd` are the values of `rand()` seen by the shuffle,
`input` the characters that `std::cin` delivers. -/
def Game.play (g : Game) (rnd : Nat → Nat) (input : List Char) : Exec Game :=
  Exec.andThen (Game.setup g rnd) fun g0 =>
  Exec.andThen (Game.initialDeal g0) fun g1 =>
  Exec.andThen (Game.check g1) fun g2 =>
  if g2.gameState.currentState ≠ State.PLAYING then Game.announce g2
  else
    Exec.andThen (Game.playerTurn g2 input) fun r =>
    if r.2 then Game.finish r.1 else ⟨[], .ok r.1⟩

/-- The number of cards in the deck and in the two hands together. -/
def Game.cardCount (g : Game) : Nat :=
  g.deck.length + g.player.hand.length + g.dealer.hand.length

/-- Card conservation at an event: right after a deal the deck and the two hands
hold 52 cards together; the other events deal no card. -/
def Event.conserves : Event → Prop
  | .dealtPlayer g => g.cardCount = 52
  | .dealtDealer g => g.cardCount = 52
  | _ => True

/-- An execution keeps the cards: each of its deal events conserves them, and the
game it returns holds 52 cards. -/
def Exec.Keeps {α : Type} (game : α → Game) (x : Exec α) : Prop :=
  (∀ e ∈ x.trace, e.conserves) ∧ ∀ a, x.result = .ok a → (game a).cardCount = 52

/-- The state that the transition rule of `checkState` assigns to the two hands of a
game: what `checkState` returns for them when it is called in state `PLAYING`. -/
def Game.ruleState (g : Game) : State :=
  (GameState.checkState ⟨State.PLAYING⟩ g.player g.dealer).2

/-- The value of `currentState` after an event, given its value `s` before it: a call
of `checkState` leaves the state it returns, the forced transition leaves
`ROUND_END`, a deal event shows the state in its snapshot, other events keep `s`. -/
def Event.stateAfter (s : State) : Event → State
  | .checked s1 => s1
  | .forcedRoundEnd => State.ROUND_END
  | .dealtPlayer g => g.gameState.currentState
  | .dealtDealer g => g.gameState.currentState
  | _ => s

/-- The value of `currentState` after the events `t` of a round; `Game::play` starts
a round by setting the state to `PLAYING`. -/
def roundState (t : List Event) : State := t.foldl Event.stateAfter State.PLAYING

/-- An event that leaves the state `PLAYING`. -/
def Event.quiet (e : Event) : Prop := Event.stateAfter State.PLAYING e = State.PLAYING

/-- The condition under which the player's turn goes on: the state is `PLAYING`, the
52 cards are all there, the dealer holds two of them, and both totals are at most 20. -/
def Game.Ready (g : Game) : Prop :=
  g.gameState.currentState = State.PLAYING ∧ g.cardCount = 52 ∧ g.dealer.hand.length = 2 ∧
    g.player.getHandValue ≤ 20 ∧ g.dealer.getHandValue ≤ 20

/-- The events of the initial deal from the shuffled deck `c1 :: c2 :: c3 :: c4 :: rest`. -/
def Game.initialDealTrace (c1 c2 c3 c4 : Card) (rest : List Card) : List Event :=
  [.dealtPlayer ⟨c2 :: c3 :: c4 :: rest, ⟨[c1]⟩, ⟨[]⟩, ⟨State.PLAYING⟩⟩,
   .dealtDealer ⟨c3 :: c4 :: rest, ⟨[c1]⟩, ⟨[c2]⟩, ⟨State.PLAYING⟩⟩,
   .dealtPlayer ⟨c4 :: rest, ⟨[c3, c1]⟩, ⟨[c2]⟩, ⟨State.PLAYING⟩⟩,
   .dealtDealer ⟨rest, ⟨[c3, c1]⟩, ⟨[c4, c2]⟩, ⟨State.PLAYING⟩⟩]

/-- The events of the dealer's draws in the game `g`. -/
def Game.dealerDraws (g : Game) : List Event :=
  (Dealer.playTurnDraws g.dealer g.deck).map
    (fun s => Event.dealtDealer { g with deck := s.2, dealer := s.1 })

/-- The game right after the initial deal from `c1 :: c2 :: c3 :: c4 :: rest`. -/
def Game.afterDeal (c1 c2 c3 c4 : Card) (rest : List Card) : Game :=
  ⟨rest, ⟨[c3, c1]⟩, ⟨[c4, c2]⟩, ⟨State.PLAYING⟩⟩

/-- The part of `Game::play` after the first check left the state `PLAYING`. -/
def Game.turns (g : Game) (input : List Char) : Exec Game :=
  Exec.andThen (Game.playerTurn g input) fun r =>
    if r.2 then Game.finish r.1 else ⟨[], .ok r.1⟩

/-- The ways a round ends after the events `Q`: the input ends; or a check settles
the round in the state that the rule assigns to the final hands; or the player stood,
the dealer's turn completed at 17 or more, the rule left the state `PLAYING` and the
state was forced to `ROUND_END`.  A settled round ends with its announcement. -/
def Exec.EndsAfter (x : Exec Game) (Q : List Event) : Prop :=
  x = ⟨Q, .error .noInput⟩ ∨
  ∃ gf : Game,
    (x = ⟨Q ++ [.checked gf.ruleState,
          .announced (GameState.announceState gf.gameState gf.player gf.dealer)], .ok gf⟩ ∧
      gf.ruleState ≠ State.PLAYING ∧ gf.gameState.currentState = gf.ruleState) ∨
    (x = ⟨Q ++ [.forcedRoundEnd,
          .announced (GameState.announceState gf.gameState gf.player gf.dealer)], .ok gf⟩ ∧
      gf.ruleState = State.PLAYING ∧ gf.gameState.currentState = State.ROUND_END ∧
      Event.read 's' ∈ Q ∧ Event.dealerDone ∈ Q ∧ 17 ≤ gf.dealer.getHandValue)

/-- Values of `rand()` under which the shuffle of the reset deck puts the Ten of
Spades, the Ten of Hearts, the Nine of Spades and the Seven of Hearts on top. -/
def randTenNine : Nat → Nat := fun k =>
  [51, 50, 49, 48, 47, 45, 44, 42, 41, 40, 39, 38, 37, 36, 35, 34, 33, 32, 31, 30, 29, 28,
    27, 26, 25, 24, 23, 22, 21, 20, 19, 18, 17, 16, 15, 14, 13, 12, 11, 10, 9, 8, 7, 6, 3,
    2, 1, 0, 2, 1, 1].getD k 0

/-- Values of `rand()` under which the shuffle of the reset deck only exchanges its
second and third card: Ace, Queen, King, Jack of Spades come first. -/
def randBlackjack : Nat → Nat := fun k => if k = 49 then 1 else 51 - k

/-- The total of a hand under a choice of Ace values: `choices` runs along the cards,
`true` counts an Ace as 1, `false` (also where the list has ended) as 11; cards other
than Aces keep their value. -/
def Hand.totalWith : List Card → List Bool → Int
  | [], _ => 0
  | c :: cs, choices =>
    (if c.rank = Rank.ACE ∧ choices.headD false = true then 1 else c.getValue) +
      Hand.totalWith cs choices.tail

/-- The number of Aces that a choice counts as 1. -/
def Hand.lowAces : List Card → List Bool → Nat
  | [], _ => 0
  | c :: cs, choices =>
    (if c.rank = Rank.ACE ∧ choices.headD false = true then 1 else 0) +
      Hand.lowAces cs choices.tail

/-- The choice that counts the first `k` Aces of the hand as 1 and the others as 11. -/
def Hand.lowFirst : List Card → Nat → List Bool
  | [], _ => []
  | c :: cs, k =>
    if c.rank = Rank.ACE then
      match k with
      | 0 => false :: Hand.lowFirst cs 0
      | k + 1 => true :: Hand.lowFirst cs k
    else false :: Hand.lowFirst cs k

/-- The swap index `j` that `Deck::shuffle` computes at the loop variable `i`: the value
of the call of `rand()` made there, modulo `i + 1`. -/
def Deck.swapIndex (rnd : Nat → Nat) (i : Nat) : Nat := rnd (DECK_SIZE - 1 - i) % (i + 1)

/-- The Fisher-Yates loop entered with the loop variable `i`, with the swap index of
each round given by `js`: position `i` is swapped with position `js i`, for `i` down
to 1. -/
def Deck.swapLoop (js : Nat → Nat) : Nat → List (Option Card) → List (Option Card)
  | 0, cards => cards
  | i + 1, cards => Deck.swapLoop js i (Deck.swapSlots cards (i + 1) (js (i + 1)))

/-! ## Lemmas on `Card::getValue` and `Hand::getValue` -/

theorem Card.getValue_eq_eleven_iff (c : Card) : c.getValue = 11 ↔ c.rank = Rank.ACE := by
  rcases c with ⟨s, r⟩
  cases r <;> simp [Card.getValue, Rank.toInt]

theorem Card.getValue_bounds (c : Card) : 2 ≤ c.getValue ∧ c.getValue ≤ 11 := by
  rcases c with ⟨s, r⟩
  cases r <;> simp [Card.getValue, Rank.toInt]

theorem Hand.sumLoop_eq (hand : List Card) (value : Int) (aces : Nat) :
    Hand.sumLoop hand value aces = (value + baseSum hand, aces + aceCount hand) := by
  induction hand generalizing value aces with
  | nil => simp [Hand.sumLoop, baseSum, aceCount]
  | cons c t ih =>
    simp only [Hand.sumLoop, ih, baseSum, aceCount, List.map_cons, List.sum_cons,
      List.countP_cons, Card.getValue_eq_eleven_iff]
    by_cases h : c.rank = Rank.ACE
    · simp [h]; constructor <;> omega
    · simp [h]; omega

theorem Hand.getValue_eq (hand : Hand) :
    Hand.getValue hand = Hand.softenLoop (aceCount hand) (baseSum hand) := by
  simp [Hand.getValue, Hand.sumLoop_eq]

/-- The result of the softening loop, described by the number `k` of subtractions. -/
theorem Hand.softenLoop_spec (aces : Nat) (value : Int) :
    ∃ k : Nat, k ≤ aces ∧ Hand.softenLoop aces value = value - 10 * (k : Int) ∧
      (∀ j : Nat, j < k → 21 < value - 10 * (j : Int)) ∧
      (value - 10 * (k : Int) ≤ 21 ∨ k = aces) := by
  induction aces generalizing value with
  | zero => exact ⟨0, le_refl _, by simp [Hand.softenLoop], by simp, Or.inr rfl⟩
  | succ n ih =>
    by_cases h : value > 21
    · obtain ⟨k, hk, heq, hlt, hor⟩ := ih (value - 10)
      refine ⟨k + 1, by omega, ?_, ?_, ?_⟩
      · simp only [Hand.softenLoop, h, if_true, heq]; push_cast; ring
      · intro j hj
        cases j with
        | zero => simpa using h
        | succ j =>
          have := hlt j (by omega)
          push_cast; omega
      · rcases hor with hor | hor
        · left; push_cast; omega
        · right; omega
    · refine ⟨0, by omega, by simp [Hand.softenLoop, h], by simp, Or.inl (by simpa using h)⟩

theorem baseSum_perm {l1 l2 : List Card} (h : l1.Perm l2) : baseSum l1 = baseSum l2 := by
  unfold baseSum
  exact (h.map Card.getValue).sum_eq

theorem aceCount_perm {l1 l2 : List Card} (h : l1.Perm l2) : aceCount l1 = aceCount l2 := by
  unfold aceCount
  exact h.countP_eq _

theorem Hand.getValue_perm {l1 l2 : List Card} (h : l1.Perm l2) :
    Hand.getValue l1 = Hand.getValue l2 := by
  rw [Hand.getValue_eq, Hand.getValue_eq, baseSum_perm h, aceCount_perm h]

theorem Hand.addCards_eq (hand : Hand) (cs : List Card) :
    Hand.addCards hand cs = .ok (cs.reverse ++ hand) := by
  induction cs generalizing hand with
  | nil => simp [Hand.addCards]
  | cons c cs ih => simp [Hand.addCards, Hand.addCard, ih]

theorem Deck.clear_eq (deck : Deck) : Deck.clear deck = [] := by
  induction deck with
  | nil => rfl
  | cons c t ih => simpa [Deck.clear] using ih

theorem Deck.reset_eq (deck : Deck) : Deck.reset deck = Deck.reset [] := by
  simp [Deck.reset, Deck.clear_eq]

theorem baseSum_sub_aces_ge (hand : List Card) :
    (hand.length : Int) ≤ baseSum hand - 10 * (aceCount hand : Int) := by
  induction hand with
  | nil => simp [baseSum, aceCount]
  | cons c t ih =>
    have hb := Card.getValue_bounds c
    have he := Card.getValue_eq_eleven_iff c
    simp only [baseSum, aceCount, List.map_cons, List.sum_cons, List.countP_cons,
      List.length_cons] at ih ⊢
    by_cases h : c.rank = Rank.ACE
    · have := he.mpr h
      simp [h]; omega
    · simp [h]; omega

theorem Hand.length_le_getValue (hand : Hand) : (hand.length : Int) ≤ Hand.getValue hand := by
  obtain ⟨k, hk, heq, -, -⟩ := Hand.softenLoop_spec (aceCount hand) (baseSum hand)
  have := baseSum_sub_aces_ge hand
  rw [Hand.getValue_eq, heq]
  have : (k : Int) ≤ (aceCount hand : Int) := by exact_mod_cast hk
  omega

theorem Dealer.playTurnLoop_stop (fuel : Nat) (dealer : Dealer) (deck : Deck)
    (h : 17 ≤ Hand.getValue dealer.hand) :
    Dealer.playTurnLoop (fuel + 1) dealer deck = ([], .ok (dealer, deck)) := by
  simp [Dealer.playTurnLoop, not_lt.mpr h]

theorem Dealer.playTurnLoop_draw (fuel : Nat) (dealer : Dealer) (c : Card) (rest : Deck)
    (h : Hand.getValue dealer.hand < 17) :
    Dealer.playTurnLoop (fuel + 1) dealer (c :: rest) =
      ((⟨c :: dealer.hand⟩, rest) :: (Dealer.playTurnLoop fuel ⟨c :: dealer.hand⟩ rest).1,
        (Dealer.playTurnLoop fuel ⟨c :: dealer.hand⟩ rest).2) := by
  simp [Dealer.playTurnLoop, h, Deck.deal, Hand.addCard]

theorem Dealer.playTurnLoop_empty (fuel : Nat) (dealer : Dealer)
    (h : Hand.getValue dealer.hand < 17) :
    Dealer.playTurnLoop (fuel + 1) dealer [] = ([], .error .nullDeref) := by
  simp [Dealer.playTurnLoop, h, Deck.deal, Hand.addCard]

theorem Dealer.drawStates_cons (dealer : Dealer) (c : Card) (rest : Deck) (n : Nat) :
    Dealer.drawStates dealer (c :: rest) (n + 1) =
      (⟨c :: dealer.hand⟩, rest) :: Dealer.drawStates ⟨c :: dealer.hand⟩ rest n := by
  simp [Dealer.drawStates, List.range_succ_eq_map, Dealer.handAfter, Function.comp_def]

/-- If the loop ends normally, it drew `n` cards, each below 17, and stopped at 17 or more. -/
theorem Dealer.playTurnLoop_ok (fuel : Nat) (dealer : Dealer) (deck : Deck)
    (draws : List (Dealer × Deck)) (d' : Dealer) (deck' : Deck)
    (h : Dealer.playTurnLoop fuel dealer deck = (draws, .ok (d', deck'))) :
    ∃ n : Nat, n ≤ deck.length ∧ n < fuel ∧ d'.hand = Dealer.handAfter dealer deck n ∧
      deck' = deck.drop n ∧ 17 ≤ Hand.getValue d'.hand ∧
      (∀ m : Nat, m < n → Hand.getValue (Dealer.handAfter dealer deck m) < 17) ∧
      draws = Dealer.drawStates dealer deck n := by
  induction fuel generalizing dealer deck draws with
  | zero => simp [Dealer.playTurnLoop] at h
  | succ fuel ih =>
    by_cases hv : Hand.getValue dealer.hand < 17
    · cases deck with
      | nil => simp [Dealer.playTurnLoop_empty fuel dealer hv] at h
      | cons c rest =>
        rw [Dealer.playTurnLoop_draw fuel dealer c rest hv] at h
        simp only [Prod.mk.injEq] at h
        obtain ⟨hd, hr⟩ := h
        obtain ⟨n, hn, hf, hh, hdk, h17, hlt, hdr⟩ :=
          ih ⟨c :: dealer.hand⟩ rest _ (Prod.ext rfl hr)
        refine ⟨n + 1, by simpa using hn, by omega, ?_, ?_, h17, ?_, ?_⟩
        · simpa [Dealer.handAfter] using hh
        · simpa using hdk
        · intro m hm
          cases m with
          | zero => simpa [Dealer.handAfter] using hv
          | succ m =>
            have := hlt m (by omega)
            simpa [Dealer.handAfter] using this
        · rw [← hd, Dealer.drawStates_cons, ← hdr]
    · rw [Dealer.playTurnLoop_stop fuel dealer deck (not_lt.mp hv)] at h
      simp only [Prod.mk.injEq, Except.ok.injEq] at h
      obtain ⟨hd, hdl, hdk⟩ := h
      subst hdl hdk
      exact ⟨0, by omega, by omega, by simp [Dealer.handAfter], by simp, not_lt.mp hv,
        by simp, by simp [Dealer.drawStates, ← hd]⟩

/-- The loop ends normally as soon as some number of draws within the deck and the
budget reaches 17. -/
theorem Dealer.playTurnLoop_reaches (fuel : Nat) (dealer : Dealer) (deck : Deck) (n : Nat)
    (hn : n ≤ deck.length) (hf : n < fuel)
    (h17 : 17 ≤ Hand.getValue (Dealer.handAfter dealer deck n)) :
    ∃ (draws : List (Dealer × Deck)) (d' : Dealer) (deck' : Deck),
      Dealer.playTurnLoop fuel dealer deck = (draws, .ok (d', deck')) := by
  induction fuel generalizing dealer deck n with
  | zero => omega
  | succ fuel ih =>
    by_cases hv : Hand.getValue dealer.hand < 17
    · cases n with
      | zero => simp [Dealer.handAfter] at h17; omega
      | succ n =>
        cases deck with
        | nil => simp at hn
        | cons c rest =>
          rw [Dealer.playTurnLoop_draw fuel dealer c rest hv]
          obtain ⟨draws, d', deck', h⟩ := ih ⟨c :: dealer.hand⟩ rest n
            (by simpa using hn) (by omega) (by simpa [Dealer.handAfter] using h17)
          exact ⟨_, d', deck', by rw [h]⟩
    · exact ⟨_, _, _, Dealer.playTurnLoop_stop fuel dealer deck (not_lt.mp hv)⟩

theorem Dealer.playTurnLoop_no_fuel_fault (fuel : Nat) (dealer : Dealer) (deck : Deck)
    (hf : deck.length < fuel) :
    (Dealer.playTurnLoop fuel dealer deck).2 ≠ .error .fuel := by
  induction fuel generalizing dealer deck with
  | zero => omega
  | succ fuel ih =>
    by_cases hv : Hand.getValue dealer.hand < 17
    · cases deck with
      | nil => simp [Dealer.playTurnLoop_empty fuel dealer hv]
      | cons c rest =>
        rw [Dealer.playTurnLoop_draw fuel dealer c rest hv]
        exact ih _ rest (by simpa using hf)
    · simp [Dealer.playTurnLoop_stop fuel dealer deck (not_lt.mp hv)]

theorem Deck.gather_length (deck : List Card) (index : Nat) (cards r : List (Option Card))
    (h : Deck.gather deck index cards = .ok r) : r.length = cards.length := by
  induction deck generalizing index cards with
  | nil => simp [Deck.gather] at h; simp [← h]
  | cons c t ih =>
    by_cases hi : index < DECK_SIZE
    · simp only [Deck.gather, hi, if_true] at h
      simpa using ih _ _ h
    · simp [Deck.gather, hi] at h

/-- The gathering loop writes the cards of the list into the slots from `index` on. -/
theorem Deck.gather_eq (deck : List Card) (index : Nat) (cards : List (Option Card))
    (hc : cards.length = DECK_SIZE) (h : index + deck.length ≤ DECK_SIZE) :
    Deck.gather deck index cards =
      .ok (cards.take index ++ deck.map some ++ cards.drop (index + deck.length)) := by
  induction deck generalizing index cards with
  | nil => simp [Deck.gather]
  | cons c t ih =>
    simp only [List.length_cons] at h
    have hi : index < DECK_SIZE := by omega
    simp only [Deck.gather, hi, if_true]
    rw [ih (index + 1) _ (by simpa using hc) (by omega)]
    congr 1
    have hic : index < cards.length := by omega
    simp only [List.map_cons, List.length_cons]
    have hlt : (cards.take index).length = index := by simp; omega
    have h1 : (cards.set index (some c)).take (index + 1) = cards.take index ++ [some c] := by
      rw [List.set_eq_take_cons_drop _ hic, List.take_append_eq_append_take]
      simp [hlt, List.take_take]
    have h2 : (cards.set index (some c)).drop (index + 1 + t.length) =
        cards.drop (index + (t.length + 1)) := by
      rw [List.drop_set_of_lt _ _ (by omega)]
      congr 1; omega
    rw [h1, h2]; simp

theorem Deck.gather_full (deck : List Card) (h : deck.length = DECK_SIZE) :
    Deck.gather deck 0 Deck.freshSlots = .ok (deck.map some) := by
  rw [Deck.gather_eq deck 0 _ (by simp [Deck.freshSlots]) (by omega)]
  simp [Deck.freshSlots, h]

theorem Deck.gather_short (deck : List Card) (h : deck.length < DECK_SIZE) :
    Deck.gather deck 0 Deck.freshSlots =
      .ok (deck.map some ++ List.replicate (DECK_SIZE - deck.length) none) := by
  rw [Deck.gather_eq deck 0 _ (by simp [Deck.freshSlots]) (by omega)]
  simp [Deck.freshSlots]

theorem Deck.gather_long (deck : List Card) (index : Nat) (cards : List (Option Card))
    (hi : index ≤ DECK_SIZE) (h : DECK_SIZE < index + deck.length) :
    Deck.gather deck index cards = .error .arrayOverflow := by
  induction deck generalizing index cards with
  | nil => simp at h; omega
  | cons c t ih =>
    by_cases hi : index < DECK_SIZE
    · simp only [Deck.gather, hi, if_true]
      exact ih _ _ (by omega) (by simp at h; omega)
    · simp [Deck.gather, hi]

theorem swapEntries_perm {α : Type} [DecidableEq α] (l : List α) (i j : Nat)
    (hi : i < l.length) (hj : j < l.length) :
    ((l.set i l[j]).set j l[i]).Perm l := by
  rw [List.perm_iff_count]
  intro a
  have hj' : j < (l.set i l[j]).length := by simpa using hj
  have hz : (l.set i l[j])[j] = l[j] := by
    rw [List.getElem_set]; split <;> rfl
  rw [List.count_set _ _ _ _ (by simpa using hj), List.count_set _ _ _ _ hi, hz]
  have hci : (if l[i] == a then 1 else 0) ≤ l.count a := by
    split
    · next h => simp at h; subst h; exact List.count_pos_iff.mpr (List.getElem_mem _)
    · omega
  generalize (if l[i] == a then 1 else 0) = p at hci ⊢
  generalize (if l[j] == a then 1 else 0) = q
  omega

theorem Deck.swapSlots_perm (cards : List (Option Card)) (i j : Nat)
    (hi : i < cards.length) (hj : j < cards.length) :
    (Deck.swapSlots cards i j).Perm cards := by
  have hgi : cards.getD i none = cards[i] := by simp [List.getD, hi]
  have hgj : cards.getD j none = cards[j] := by simp [List.getD, hj]
  simp only [Deck.swapSlots, hgi, hgj]
  exact swapEntries_perm cards i j hi hj

theorem Deck.shuffleLoop_perm (rnd : Nat → Nat) (i : Nat) (cards : List (Option Card))
    (hi : i < cards.length) : (Deck.shuffleLoop rnd i cards).Perm cards := by
  induction i generalizing cards with
  | zero => simp [Deck.shuffleLoop]
  | succ i ih =>
    simp only [Deck.shuffleLoop]
    have hj : rnd (DECK_SIZE - 1 - (i + 1)) % (i + 1 + 1) < cards.length :=
      lt_of_lt_of_le (Nat.mod_lt _ (by omega)) (by omega)
    have hp := Deck.swapSlots_perm cards (i + 1) _ hi hj
    exact (ih _ (by rw [hp.length_eq]; omega)).trans hp

theorem Deck.relink_map_some (deck : List Card) : Deck.relink (deck.map some) = .ok deck := by
  induction deck with
  | nil => rfl
  | cons c t ih => simp [Deck.relink, ih]

theorem Deck.relink_of_mem_none (cards : List (Option Card)) (h : none ∈ cards) :
    Deck.relink cards = .error .uninitRead := by
  induction cards with
  | nil => simp at h
  | cons x t ih =>
    cases x with
    | none => simp [Deck.relink]
    | some c =>
      have ht : none ∈ t := by simpa using h
      simp [Deck.relink, ih ht]

theorem Deck.eq_map_some_of_not_mem_none (cards : List (Option Card)) (h : none ∉ cards) :
    ∃ deck : List Card, cards = deck.map some := by
  induction cards with
  | nil => exact ⟨[], rfl⟩
  | cons x t ih =>
    cases x with
    | none => simp at h
    | some c =>
      obtain ⟨d, hd⟩ := ih (fun hm => h (List.mem_cons_of_mem _ hm))
      exact ⟨c :: d, by simp [hd]⟩

/-- On a deck of exactly `DECK_SIZE` cards `Deck::shuffle` returns a permutation. -/
theorem Deck.shuffle_full (rnd : Nat → Nat) (deck : Deck) (h : deck.length = DECK_SIZE) :
    ∃ deck' : Deck, Deck.shuffle rnd deck = .ok deck' ∧ deck'.Perm deck := by
  have hp := Deck.shuffleLoop_perm rnd (DECK_SIZE - 1) (deck.map some)
    (by simp [h]; decide)
  have hn : none ∉ Deck.shuffleLoop rnd (DECK_SIZE - 1) (deck.map some) := by
    intro hm
    simpa using hp.mem_iff.mp hm
  obtain ⟨d, hd⟩ := Deck.eq_map_some_of_not_mem_none _ hn
  refine ⟨d, ?_, ?_⟩
  · simp [Deck.shuffle, Deck.gather_full deck h, hd, Deck.relink_map_some]
  · rw [hd] at hp
    simpa using hp.filterMap id

/-- On a deck of fewer than `DECK_SIZE` cards `Deck::shuffle` uses a slot of the
array that was never written. -/
theorem Deck.shuffle_short (rnd : Nat → Nat) (deck : Deck) (h : deck.length < DECK_SIZE) :
    Deck.shuffle rnd deck = .error .uninitRead := by
  simp only [Deck.shuffle, Deck.gather_short deck h]
  apply Deck.relink_of_mem_none
  have hp := Deck.shuffleLoop_perm rnd (DECK_SIZE - 1)
    (deck.map some ++ List.replicate (DECK_SIZE - deck.length) none)
    (by simp; omega)
  rw [hp.mem_iff]
  simp
  omega

theorem Exec.andThen_ok {α β : Type} (t : List Event) (a : α) (f : α → Exec β) :
    Exec.andThen ⟨t, .ok a⟩ f = ⟨t ++ (f a).trace, (f a).result⟩ := rfl

theorem Exec.andThen_error {α β : Type} (t : List Event) (e : Fault) (f : α → Exec β) :
    Exec.andThen ⟨t, .error e⟩ f = ⟨t, .error e⟩ := rfl

theorem Exec.mem_trace_andThen {α β : Type} (x : Exec α) (f : α → Exec β) (e : Event)
    (h : e ∈ (Exec.andThen x f).trace) :
    e ∈ x.trace ∨ ∃ a, x.result = .ok a ∧ e ∈ (f a).trace := by
  rcases x with ⟨t, r⟩
  cases r with
  | error err => left; simpa [Exec.andThen] using h
  | ok a =>
    simp only [Exec.andThen, List.mem_append] at h
    rcases h with h | h
    · exact Or.inl h
    · exact Or.inr ⟨a, rfl, h⟩

theorem Exec.result_andThen_ok {α β : Type} (x : Exec α) (f : α → Exec β) (b : β)
    (h : (Exec.andThen x f).result = .ok b) :
    ∃ a, x.result = .ok a ∧ (f a).result = .ok b := by
  rcases x with ⟨t, r⟩
  cases r with
  | error err => simp [Exec.andThen] at h
  | ok a => exact ⟨a, rfl, by simpa [Exec.andThen] using h⟩

theorem Exec.Keeps.andThen {α β : Type} (ga : α → Game) {gb : β → Game} {x : Exec α}
    {f : α → Exec β} (hx : x.Keeps ga)
    (hf : ∀ a, (ga a).cardCount = 52 → (f a).Keeps gb) : (Exec.andThen x f).Keeps gb := by
  constructor
  · intro e he
    rcases Exec.mem_trace_andThen x f e he with h | ⟨a, ha, h⟩
    · exact hx.1 e h
    · exact (hf a (hx.2 a ha)).1 e h
  · intro g hg
    obtain ⟨a, ha, h⟩ := Exec.result_andThen_ok x f g hg
    exact (hf a (hx.2 a ha)).2 g h

theorem Game.dealPlayer_keeps (g : Game) (h : g.cardCount = 52) : (Game.dealPlayer g).Keeps id := by
  rcases g with ⟨deck, player, dealer, gs⟩
  cases deck with
  | nil => constructor <;> simp [Game.dealPlayer, Deck.deal, Hand.addCard]
  | cons c rest =>
    simp only [Game.cardCount, List.length_cons] at h
    constructor <;>
      simp [Game.dealPlayer, Deck.deal, Hand.addCard, Event.conserves, Game.cardCount] <;> omega

theorem Game.dealDealer_keeps (g : Game) (h : g.cardCount = 52) : (Game.dealDealer g).Keeps id := by
  rcases g with ⟨deck, player, dealer, gs⟩
  cases deck with
  | nil => constructor <;> simp [Game.dealDealer, Deck.deal, Hand.addCard]
  | cons c rest =>
    simp only [Game.cardCount, List.length_cons] at h
    constructor <;>
      simp [Game.dealDealer, Deck.deal, Hand.addCard, Event.conserves, Game.cardCount] <;> omega

theorem Game.hit_keeps (g : Game) (h : g.cardCount = 52) : (Game.hit g).Keeps id := by
  rcases g with ⟨deck, player, dealer, gs⟩
  cases deck with
  | nil => constructor <;> simp [Game.hit, Player.hit, Deck.deal, Hand.addCard]
  | cons c rest =>
    simp only [Game.cardCount, List.length_cons] at h
    constructor <;>
      simp [Game.hit, Player.hit, Deck.deal, Hand.addCard, Event.conserves, Game.cardCount] <;>
      omega

theorem Game.check_keeps (g : Game) (h : g.cardCount = 52) : (Game.check g).Keeps id := by
  constructor
  · simp [Game.check, Event.conserves]
  · intro g' hg'
    simp only [Game.check, Except.ok.injEq] at hg'
    subst hg'
    simpa [Game.cardCount] using h

theorem Game.announce_keeps (g : Game) (h : g.cardCount = 52) : (Game.announce g).Keeps id := by
  constructor
  · simp [Game.announce, Event.conserves]
  · intro g' hg'
    simp only [Game.announce, Except.ok.injEq] at hg'
    subst hg'
    exact h

/-- Every draw of the dealer's loop moves one card from the deck to the hand. -/
theorem Dealer.playTurnLoop_sizes (fuel : Nat) (dealer : Dealer) (deck : Deck) :
    (∀ s ∈ (Dealer.playTurnLoop fuel dealer deck).1,
      s.2.length + s.1.hand.length = deck.length + dealer.hand.length) ∧
    (∀ s, (Dealer.playTurnLoop fuel dealer deck).2 = .ok s →
      s.2.length + s.1.hand.length = deck.length + dealer.hand.length) := by
  induction fuel generalizing dealer deck with
  | zero => simp [Dealer.playTurnLoop]
  | succ fuel ih =>
    by_cases hv : Hand.getValue dealer.hand < 17
    · cases deck with
      | nil => simp [Dealer.playTurnLoop_empty fuel dealer hv]
      | cons c rest =>
        rw [Dealer.playTurnLoop_draw fuel dealer c rest hv]
        have := ih ⟨c :: dealer.hand⟩ rest
        simp only [List.length_cons] at this
        constructor
        · intro s hs
          simp only [List.mem_cons] at hs
          rcases hs with hs | hs
          · subst hs; simp; omega
          · have := this.1 s hs
            simp only [List.length_cons]; omega
        · intro s hs
          have := this.2 s hs
          simp only [List.length_cons]; omega
    · rw [Dealer.playTurnLoop_stop fuel dealer deck (not_lt.mp hv)]
      constructor
      · simp
      · intro s hs
        simp only [Except.ok.injEq] at hs
        subst hs; rfl

theorem Game.dealerTurn_keeps (g : Game) (h : g.cardCount = 52) : (Game.dealerTurn g).Keeps id := by
  have hs := Dealer.playTurnLoop_sizes (g.deck.length + 1) g.dealer g.deck
  have hdraws : ∀ e ∈ (Dealer.playTurnDraws g.dealer g.deck).map
      (fun s => Event.dealtDealer { g with deck := s.2, dealer := s.1 }), e.conserves := by
    intro e he
    simp only [List.mem_map] at he
    obtain ⟨s, hs', rfl⟩ := he
    have := hs.1 s hs'
    simp only [Event.conserves, Game.cardCount] at h ⊢
    omega
  unfold Game.dealerTurn
  cases hr : Dealer.playTurn g.dealer g.deck with
  | error err => exact ⟨by simpa using hdraws, by simp⟩
  | ok s =>
    rcases s with ⟨dealer, deck⟩
    constructor
    · intro e he
      simp only [List.mem_append, List.mem_singleton] at he
      rcases he with he | he
      · exact hdraws e he
      · subst he; trivial
    · intro g' hg'
      simp only [Except.ok.injEq] at hg'
      subst hg'
      have := hs.2 (dealer, deck) hr
      simp only [Game.cardCount, id] at h this ⊢
      omega

theorem Game.playerTurn_keeps (g : Game) (input : List Char) (h : g.cardCount = 52) :
    (Game.playerTurn g input).Keeps Prod.fst := by
  induction input generalizing g with
  | nil => constructor <;> simp [Game.playerTurn]
  | cons choice input ih =>
    unfold Game.playerTurn
    refine Exec.Keeps.andThen (fun _ => g) ⟨by simp [Event.conserves], fun _ _ => h⟩
      fun _ _ => ?_
    by_cases hh : choice = 'h'
    · rw [if_pos hh]
      refine Exec.Keeps.andThen _ (Game.hit_keeps g h) fun g1 h1 => ?_
      refine Exec.Keeps.andThen _ (Game.check_keeps g1 h1) fun g2 h2 => ?_
      by_cases hp : g2.gameState.currentState ≠ State.PLAYING
      · rw [if_pos hp]
        refine Exec.Keeps.andThen _ (Game.announce_keeps g2 h2) fun g3 h3 => ?_
        exact ⟨by simp, by simpa using h3⟩
      · rw [if_neg hp]
        exact ih g2 h2
    · rw [if_neg hh]
      by_cases hs : choice = 's'
      · rw [if_pos hs]
        exact ⟨by simp, by simpa using h⟩
      · rw [if_neg hs]
        exact ih g h

theorem Game.finish_keeps (g : Game) (h : g.cardCount = 52) : (Game.finish g).Keeps id := by
  unfold Game.finish
  refine Exec.Keeps.andThen _ (Game.dealerTurn_keeps g h) fun g1 h1 => ?_
  refine Exec.Keeps.andThen _ (Game.check_keeps g1 h1) fun g2 h2 => ?_
  by_cases hp : g2.gameState.currentState = State.PLAYING
  · rw [if_pos hp]
    refine Exec.Keeps.andThen id ⟨by simp [Event.conserves], ?_⟩
      fun g3 h3 => Game.announce_keeps g3 h3
    intro a ha
    simp only [Except.ok.injEq] at ha
    subst ha
    simpa [Game.cardCount] using h2
  · rw [if_neg hp]
    exact Game.announce_keeps g2 h2

theorem Game.initialDeal_keeps (g : Game) (h : g.cardCount = 52) :
    (Game.initialDeal g).Keeps id := by
  unfold Game.initialDeal
  refine Exec.Keeps.andThen _ (Game.dealPlayer_keeps g h) fun g1 h1 => ?_
  refine Exec.Keeps.andThen _ (Game.dealDealer_keeps g1 h1) fun g2 h2 => ?_
  exact Exec.Keeps.andThen _ (Game.dealPlayer_keeps g2 h2) fun g3 h3 =>
    Game.dealDealer_keeps g3 h3

/-- The setup of a round always succeeds: it ends with no event, in state `PLAYING`,
with empty hands and a deck that is a permutation of the freshly reset deck. -/
theorem Game.setup_eq (g : Game) (rnd : Nat → Nat) :
    ∃ deck : Deck, deck.Perm (Deck.reset []) ∧
      Game.setup g rnd = ⟨[], .ok ⟨deck, ⟨[]⟩, ⟨[]⟩, ⟨State.PLAYING⟩⟩⟩ := by
  obtain ⟨deck, hd, hp⟩ := Deck.shuffle_full rnd (Deck.reset g.deck)
    (by rw [Deck.reset_eq]; decide)
  refine ⟨deck, by rwa [Deck.reset_eq] at hp, ?_⟩
  simp [Game.setup, hd, Hand.clear]

/-- The initial deal on a deck of at least four cards. -/
theorem Game.initialDeal_eq (c1 c2 c3 c4 : Card) (rest : List Card) (p d : Hand)
    (gs : GameState) :
    Game.initialDeal ⟨c1 :: c2 :: c3 :: c4 :: rest, ⟨p⟩, ⟨d⟩, gs⟩ =
      ⟨[.dealtPlayer ⟨c2 :: c3 :: c4 :: rest, ⟨c1 :: p⟩, ⟨d⟩, gs⟩,
        .dealtDealer ⟨c3 :: c4 :: rest, ⟨c1 :: p⟩, ⟨c2 :: d⟩, gs⟩,
        .dealtPlayer ⟨c4 :: rest, ⟨c3 :: c1 :: p⟩, ⟨c2 :: d⟩, gs⟩,
        .dealtDealer ⟨rest, ⟨c3 :: c1 :: p⟩, ⟨c4 :: c2 :: d⟩, gs⟩],
       .ok ⟨rest, ⟨c3 :: c1 :: p⟩, ⟨c4 :: c2 :: d⟩, gs⟩⟩ := rfl

theorem List.exists_four_of_length {α : Type} (l : List α) (h : 4 ≤ l.length) :
    ∃ a b c d rest, l = a :: b :: c :: d :: rest := by
  match l, h with
  | a :: b :: c :: d :: rest, _ => exact ⟨a, b, c, d, rest, rfl⟩

theorem Game.play_keeps (g : Game) (rnd : Nat → Nat) (input : List Char) :
    (Game.play g rnd input).Keeps id := by
  obtain ⟨deck, hp, hs⟩ := Game.setup_eq g rnd
  have h0 : (⟨deck, ⟨[]⟩, ⟨[]⟩, ⟨State.PLAYING⟩⟩ : Game).cardCount = 52 := by
    simp only [Game.cardCount, hp.length_eq]; decide
  unfold Game.play
  refine Exec.Keeps.andThen id ?_ fun g0 h0 => ?_
  · rw [hs]
    exact ⟨by simp, fun a ha => by simp only [Except.ok.injEq] at ha; subst ha; exact h0⟩
  refine Exec.Keeps.andThen _ (Game.initialDeal_keeps g0 h0) fun g1 h1 => ?_
  refine Exec.Keeps.andThen _ (Game.check_keeps g1 h1) fun g2 h2 => ?_
  by_cases hpl : g2.gameState.currentState ≠ State.PLAYING
  · rw [if_pos hpl]
    exact Game.announce_keeps g2 h2
  · rw [if_neg hpl]
    refine Exec.Keeps.andThen _ (Game.playerTurn_keeps g2 input h2) fun r hr => ?_
    by_cases hb : r.2 = true
    · rw [if_pos hb]
      exact Game.finish_keeps r.1 hr
    · rw [if_neg hb]
      exact ⟨by simp, fun a ha => by simp only [Except.ok.injEq] at ha; subst ha; exact hr⟩

/-- A round starts with the four deals of the initial deal. -/
theorem Game.play_trace_start (g : Game) (rnd : Nat → Nat) (input : List Char) :
    ∃ (g1 g2 g3 g4 : Game) (rest : List Event),
      (Game.play g rnd input).trace =
        .dealtPlayer g1 :: .dealtDealer g2 :: .dealtPlayer g3 :: .dealtDealer g4 :: rest := by
  obtain ⟨deck, hp, hs⟩ := Game.setup_eq g rnd
  obtain ⟨c1, c2, c3, c4, tl, rfl⟩ := List.exists_four_of_length deck
    (by rw [hp.length_eq]; decide)
  unfold Game.play
  rw [hs, Exec.andThen_ok, Game.initialDeal_eq, Exec.andThen_ok]
  exact ⟨_, _, _, _, _, rfl⟩

theorem GameState.checkState_eq (gs : GameState) (p : Player) (d : Dealer) :
    GameState.checkState gs p d =
      (⟨(GameState.checkState gs p d).2⟩, (GameState.checkState gs p d).2) := rfl

theorem GameState.checkState_settled (s : State) (p : Player) (d : Dealer)
    (h : s ≠ State.PLAYING) : GameState.checkState ⟨s⟩ p d = (⟨s⟩, s) := by
  simp [GameState.checkState, h]

theorem Game.check_eq (g : Game) (h : g.gameState.currentState = State.PLAYING) :
    Game.check g = ⟨[.checked g.ruleState], .ok { g with gameState := ⟨g.ruleState⟩ }⟩ := by
  rcases g with ⟨deck, p, d, ⟨s⟩⟩
  simp only at h
  subst h
  rfl

theorem Game.ruleState_eq_playing_iff (g : Game) :
    g.ruleState = State.PLAYING ↔ g.player.getHandValue ≤ 20 ∧ g.dealer.getHandValue ≤ 20 := by
  unfold Game.ruleState GameState.checkState
  simp only [if_true]
  constructor
  · intro h
    split_ifs at h with h1 h2 h3 h4
    all_goals simp at h
    omega
  · rintro ⟨hp, hd⟩
    have h1 : ¬ g.player.getHandValue = 21 := by omega
    have h2 : ¬ g.dealer.getHandValue = 21 := by omega
    have h3 : ¬ g.player.getHandValue > 21 := by omega
    have h4 : ¬ g.dealer.getHandValue > 21 := by omega
    simp [h1, h2, h3, h4]

theorem Game.ruleState_ne_roundEnd (g : Game) : g.ruleState ≠ State.ROUND_END := by
  unfold Game.ruleState GameState.checkState
  simp only [if_true]
  split_ifs <;> simp

theorem Exec.eq_of_parts {α : Type} (x : Exec α) (t : List Event) (r : Except Fault α)
    (ht : x.trace = t) (hr : x.result = r) : x = ⟨t, r⟩ := by
  cases x; simp_all

theorem Game.Ready.deck_length {g : Game} (h : g.Ready) : 30 ≤ g.deck.length := by
  obtain ⟨-, hc, hd, hp, -⟩ := h
  have := Hand.length_le_getValue g.player.hand
  simp only [Game.cardCount, Player.getHandValue] at hc hp
  omega

/-- A hit in a ready game succeeds: it moves one card from the deck to the player. -/
theorem Game.hit_ready (g : Game) (h : g.Ready) :
    ∃ g1 : Game, Game.hit g = ⟨[.dealtPlayer g1], .ok g1⟩ ∧
      g1.gameState = g.gameState ∧ g1.dealer = g.dealer ∧ g1.cardCount = g.cardCount := by
  have hl := h.deck_length
  rcases g with ⟨deck, p, d, gs⟩
  cases deck with
  | nil => simp at hl
  | cons c rest =>
    refine ⟨⟨rest, ⟨c :: p.hand⟩, d, gs⟩, rfl, rfl, rfl, ?_⟩
    simp only [Game.cardCount, List.length_cons]
    omega

/-- One iteration of the player's loop that reads `h`, when the hit succeeds. -/
theorem Game.playerTurn_hit (g g1 : Game) (input : List Char)
    (hhit : Game.hit g = ⟨[.dealtPlayer g1], .ok g1⟩)
    (hs : g1.gameState.currentState = State.PLAYING) :
    Game.playerTurn g ('h' :: input) =
      if g1.ruleState ≠ State.PLAYING then
        ⟨[.read 'h', .dealtPlayer g1, .checked g1.ruleState,
            .announced (GameState.announceState ⟨g1.ruleState⟩ g1.player g1.dealer)],
          .ok ({ g1 with gameState := ⟨g1.ruleState⟩ }, false)⟩
      else
        ⟨[.read 'h', .dealtPlayer g1, .checked g1.ruleState] ++
            (Game.playerTurn { g1 with gameState := ⟨g1.ruleState⟩ } input).trace,
          (Game.playerTurn { g1 with gameState := ⟨g1.ruleState⟩ } input).result⟩ := by
  rw [Game.playerTurn, Exec.andThen_ok, if_pos rfl, hhit, Exec.andThen_ok,
    Game.check_eq g1 hs, Exec.andThen_ok]
  by_cases hr : g1.ruleState = State.PLAYING
  · rw [if_neg (by simpa using hr), if_neg (by simpa using hr)]
    rfl
  · rw [if_pos (by simpa using hr), if_pos (by simpa using hr)]
    rfl

/-- One iteration of the player's loop that reads neither `h` nor `s`. -/
theorem Game.playerTurn_other (g : Game) (choice : Char) (input : List Char)
    (hh : choice ≠ 'h') (hs : choice ≠ 's') :
    Game.playerTurn g (choice :: input) =
      ⟨.read choice :: (Game.playerTurn g input).trace, (Game.playerTurn g input).result⟩ := by
  rw [Game.playerTurn, Exec.andThen_ok, if_neg hh, if_neg hs]
  rfl

/-- The iteration of the player's loop that reads `s`. -/
theorem Game.playerTurn_stand (g : Game) (input : List Char) :
    Game.playerTurn g ('s' :: input) = ⟨[.read 's'], .ok (g, true)⟩ := by
  rw [Game.playerTurn, Exec.andThen_ok, if_neg (by decide), if_pos rfl]
  rfl

/-- The shape of the player's turn from a ready game: a run of events that leave the
state `PLAYING`, ended by the end of the input, by the player standing, or by a
check that settles the round. -/
theorem Game.playerTurn_shape (g : Game) (input : List Char) (h : g.Ready) :
    ∃ Q : List Event, (∀ e ∈ Q, e.quiet) ∧
      (Game.playerTurn g input = ⟨Q, .error .noInput⟩ ∨
       (∃ g' : Game, Game.playerTurn g input = ⟨Q, .ok (g', true)⟩ ∧
          Event.read 's' ∈ Q ∧ g'.Ready) ∨
       (∃ g' : Game, Game.playerTurn g input =
            ⟨Q ++ [.checked g'.ruleState,
              .announced (GameState.announceState g'.gameState g'.player g'.dealer)],
              .ok (g', false)⟩ ∧
          g'.ruleState ≠ State.PLAYING ∧ g'.gameState.currentState = g'.ruleState)) := by
  induction input generalizing g with
  | nil => exact ⟨[], by simp, Or.inl rfl⟩
  | cons choice input ih =>
    by_cases hh : choice = 'h'
    · subst hh
      obtain ⟨g1, hhit, hgs, hd, hc⟩ := Game.hit_ready g h
      have hs1 : g1.gameState.currentState = State.PLAYING := by rw [hgs]; exact h.1
      rw [Game.playerTurn_hit g g1 input hhit hs1]
      by_cases hr : g1.ruleState = State.PLAYING
      · rw [if_neg (by simpa using hr)]
        have hready : ({ g1 with gameState := ⟨g1.ruleState⟩ } : Game).Ready := by
          have := (Game.ruleState_eq_playing_iff g1).mp hr
          exact ⟨hr, by rw [← h.2.1, ← hc]; rfl, by rw [← h.2.2.1, ← hd], this.1, this.2⟩
        obtain ⟨Q, hQ, hcase⟩ := ih _ hready
        refine ⟨[.read 'h', .dealtPlayer g1, .checked g1.ruleState] ++ Q, ?_, ?_⟩
        · intro e he
          simp only [List.mem_append, List.mem_cons, List.mem_singleton, List.not_mem_nil,
            or_false] at he
          rcases he with (rfl | rfl | rfl) | he
          · rfl
          · exact hs1
          · exact hr
          · exact hQ e he
        · rcases hcase with hc | ⟨g', hc, hs, hr'⟩ | ⟨g', hc, hn, hs⟩
          · left; rw [hc]
          · right; left; exact ⟨g', by rw [hc], by simp [hs], hr'⟩
          · right; right; exact ⟨g', by rw [hc]; simp, hn, hs⟩
      · rw [if_pos (by simpa using hr)]
        refine ⟨[.read 'h', .dealtPlayer g1], ?_, ?_⟩
        · intro e he
          simp only [List.mem_cons, List.mem_singleton, List.not_mem_nil, or_false] at he
          rcases he with rfl | rfl
          · rfl
          · exact hs1
        · right; right
          exact ⟨{ g1 with gameState := ⟨g1.ruleState⟩ }, rfl, hr, rfl⟩
    · by_cases hs : choice = 's'
      · subst hs
        rw [Game.playerTurn_stand]
        exact ⟨[.read 's'], by intro e he; simp at he; subst he; rfl,
          Or.inr (Or.inl ⟨g, rfl, by simp, h⟩)⟩
      · rw [Game.playerTurn_other g choice input hh hs]
        obtain ⟨Q, hQ, hcase⟩ := ih g h
        refine ⟨.read choice :: Q, ?_, ?_⟩
        · intro e he
          simp only [List.mem_cons] at he
          rcases he with rfl | he
          · rfl
          · exact hQ e he
        · rcases hcase with hc | ⟨g', hc, hs', hr'⟩ | ⟨g', hc, hn, hs'⟩
          · left; rw [hc]
          · right; left; exact ⟨g', by rw [hc], by simp [hs'], hr'⟩
          · right; right; exact ⟨g', by rw [hc]; simp, hn, hs'⟩

theorem Game.dealerTurn_eq (g : Game) (d' : Dealer) (deck' : Deck)
    (hp : Dealer.playTurn g.dealer g.deck = .ok (d', deck')) :
    Game.dealerTurn g =
      ⟨g.dealerDraws ++ [.dealerDone], .ok { g with deck := deck', dealer := d' }⟩ := by
  simp only [Game.dealerTurn, hp, Game.dealerDraws]

/-- The part of a round after the player stood, when the dealer's turn completes. -/
theorem Game.finish_eq (g : Game) (d' : Dealer) (deck' : Deck)
    (hs : g.gameState.currentState = State.PLAYING)
    (hp : Dealer.playTurn g.dealer g.deck = .ok (d', deck')) :
    Game.finish g =
      if ({ g with deck := deck', dealer := d' } : Game).ruleState = State.PLAYING then
        ⟨g.dealerDraws ++ [.dealerDone, .checked State.PLAYING, .forcedRoundEnd,
            .announced (GameState.announceState ⟨State.ROUND_END⟩ g.player d')],
          .ok ⟨deck', g.player, d', ⟨State.ROUND_END⟩⟩⟩
      else
        ⟨g.dealerDraws ++ [.dealerDone,
            .checked ({ g with deck := deck', dealer := d' } : Game).ruleState,
            .announced (GameState.announceState
              ⟨({ g with deck := deck', dealer := d' } : Game).ruleState⟩ g.player d')],
          .ok ⟨deck', g.player, d',
            ⟨({ g with deck := deck', dealer := d' } : Game).ruleState⟩⟩⟩ := by
  rw [Game.finish, Game.dealerTurn_eq g d' deck' hp, Exec.andThen_ok,
    Game.check_eq { g with deck := deck', dealer := d' } hs, Exec.andThen_ok]
  by_cases hr : ({ g with deck := deck', dealer := d' } : Game).ruleState = State.PLAYING
  · rw [if_pos hr, if_pos hr, Exec.andThen_ok, hr]
    simp [Game.announce]
  · rw [if_neg hr, if_neg hr]
    simp [Game.announce]

/-- The draws of the dealer's turn leave the state of the game as it is. -/
theorem Game.dealerDraws_quiet (g : Game) (hs : g.gameState.currentState = State.PLAYING) :
    ∀ e ∈ g.dealerDraws, e.quiet := by
  intro e he
  simp only [Game.dealerDraws, List.mem_map] at he
  obtain ⟨s, -, rfl⟩ := he
  exact hs

/-- In a ready game the dealer's turn completes, at a total of 17 or more. -/
theorem Game.Ready.playTurn_ok {g : Game} (h : g.Ready) :
    ∃ (d' : Dealer) (deck' : Deck), Dealer.playTurn g.dealer g.deck = .ok (d', deck') ∧
      17 ≤ d'.getHandValue := by
  have hl := h.deck_length
  obtain ⟨draws, d', deck', hloop⟩ :=
    Dealer.playTurnLoop_reaches (g.deck.length + 1) g.dealer g.deck 17 (by omega) (by omega)
      (le_trans (by simp [Dealer.handAfter, List.length_take]; omega)
        (Hand.length_le_getValue _))
  obtain ⟨n, -, -, -, -, h17, -, -⟩ :=
    Dealer.playTurnLoop_ok _ _ _ _ _ _ hloop
  exact ⟨d', deck', by simp [Dealer.playTurn, hloop], h17⟩

/-- The shuffle of the reset deck always succeeds; it leaves 52 cards. -/
theorem Deck.shuffle_reset (rnd : Nat → Nat) (deck : Deck) :
    ∃ (c1 c2 c3 c4 : Card) (rest : List Card),
      Deck.shuffle rnd (Deck.reset deck) = .ok (c1 :: c2 :: c3 :: c4 :: rest) ∧
      rest.length = 48 ∧ (c1 :: c2 :: c3 :: c4 :: rest).Perm (Deck.reset []) := by
  obtain ⟨d, hd, hp⟩ := Deck.shuffle_full rnd (Deck.reset deck)
    (by rw [Deck.reset_eq]; decide)
  rw [Deck.reset_eq] at hp
  obtain ⟨c1, c2, c3, c4, rest, rfl⟩ := List.exists_four_of_length d
    (by rw [hp.length_eq]; decide)
  refine ⟨c1, c2, c3, c4, rest, hd, ?_, hp⟩
  have := hp.length_eq
  simp only [List.length_cons] at this
  have h52 : (Deck.reset []).length = 52 := by decide
  omega

/-- The round, unfolded up to the first check, for a given outcome of the shuffle. -/
theorem Game.play_eq (g : Game) (rnd : Nat → Nat) (input : List Char)
    (c1 c2 c3 c4 : Card) (rest : List Card)
    (hshuf : Deck.shuffle rnd (Deck.reset g.deck) = .ok (c1 :: c2 :: c3 :: c4 :: rest)) :
    Game.play g rnd input =
      if (Game.afterDeal c1 c2 c3 c4 rest).ruleState ≠ State.PLAYING then
        ⟨Game.initialDealTrace c1 c2 c3 c4 rest ++
            [.checked (Game.afterDeal c1 c2 c3 c4 rest).ruleState,
             .announced (GameState.announceState
                ⟨(Game.afterDeal c1 c2 c3 c4 rest).ruleState⟩ ⟨[c3, c1]⟩ ⟨[c4, c2]⟩)],
          .ok ⟨rest, ⟨[c3, c1]⟩, ⟨[c4, c2]⟩, ⟨(Game.afterDeal c1 c2 c3 c4 rest).ruleState⟩⟩⟩
      else
        ⟨Game.initialDealTrace c1 c2 c3 c4 rest ++ [.checked State.PLAYING] ++
            (Game.turns (Game.afterDeal c1 c2 c3 c4 rest) input).trace,
          (Game.turns (Game.afterDeal c1 c2 c3 c4 rest) input).result⟩ := by
  have hsetup : Game.setup g rnd =
      ⟨[], .ok ⟨c1 :: c2 :: c3 :: c4 :: rest, ⟨[]⟩, ⟨[]⟩, ⟨State.PLAYING⟩⟩⟩ := by
    simp [Game.setup, hshuf, Hand.clear]
  rw [Game.play, hsetup, Exec.andThen_ok, Game.initialDeal_eq, Exec.andThen_ok,
    Game.check_eq ⟨rest, ⟨[c3, c1]⟩, ⟨[c4, c2]⟩, ⟨State.PLAYING⟩⟩ rfl, Exec.andThen_ok]
  by_cases hr : (Game.afterDeal c1 c2 c3 c4 rest).ruleState = State.PLAYING
  · have hr' : (⟨rest, ⟨[c3, c1]⟩, ⟨[c4, c2]⟩, ⟨State.PLAYING⟩⟩ : Game).ruleState
        = State.PLAYING := hr
    rw [if_neg (by simpa using hr), if_neg (by simpa using hr')]
    simp only [hr', Game.turns, Game.afterDeal, Game.initialDealTrace]
    simp
  · have hr' : ¬ (⟨rest, ⟨[c3, c1]⟩, ⟨[c4, c2]⟩, ⟨State.PLAYING⟩⟩ : Game).ruleState
        = State.PLAYING := hr
    rw [if_pos (by simpa using hr), if_pos (by simpa using hr')]
    simp [Game.announce, Game.afterDeal, Game.initialDealTrace]

theorem Game.turns_shape (g : Game) (input : List Char) (h : g.Ready) :
    ∃ Q : List Event, (∀ e ∈ Q, e.quiet) ∧ (Game.turns g input).EndsAfter Q := by
  obtain ⟨Q, hQ, hcase⟩ := Game.playerTurn_shape g input h
  rcases hcase with hc | ⟨g', hc, hs, hr'⟩ | ⟨g', hc, hn, hs⟩
  · exact ⟨Q, hQ, Or.inl (by rw [Game.turns, hc]; rfl)⟩
  · obtain ⟨d', deck', hp, h17⟩ := hr'.playTurn_ok
    have hfin := Game.finish_eq g' d' deck' hr'.1 hp
    have hdq := Game.dealerDraws_quiet g' hr'.1
    by_cases hr : ({ g' with deck := deck', dealer := d' } : Game).ruleState = State.PLAYING
    · rw [if_pos hr] at hfin
      refine ⟨Q ++ g'.dealerDraws ++ [.dealerDone, .checked State.PLAYING], ?_, Or.inr
        ⟨⟨deck', g'.player, d', ⟨State.ROUND_END⟩⟩, Or.inr ⟨?_, hr, rfl, ?_, ?_, h17⟩⟩⟩
      · intro e he
        simp only [List.mem_append, List.mem_cons, List.mem_singleton, List.not_mem_nil,
          or_false] at he
        rcases he with (he | he) | rfl | rfl
        · exact hQ e he
        · exact hdq e he
        · rfl
        · rfl
      · rw [Game.turns, hc, Exec.andThen_ok]
        simp [hfin]
      · simp [hs]
      · simp
    · rw [if_neg hr] at hfin
      refine ⟨Q ++ g'.dealerDraws ++ [.dealerDone], ?_, Or.inr
        ⟨⟨deck', g'.player, d',
          ⟨({ g' with deck := deck', dealer := d' } : Game).ruleState⟩⟩, Or.inl ⟨?_, hr, rfl⟩⟩⟩
      · intro e he
        simp only [List.mem_append, List.mem_singleton] at he
        rcases he with (he | he) | rfl
        · exact hQ e he
        · exact hdq e he
        · rfl
      · rw [Game.turns, hc, Exec.andThen_ok]
        simp only [hfin, Bool.true_eq_false, if_true, List.append_assoc, List.cons_append,
          List.nil_append]
        rfl
  · exact ⟨Q, hQ, Or.inr ⟨g', Or.inl ⟨by rw [Game.turns, hc]; simp [Exec.andThen], hn, hs⟩⟩⟩

theorem Game.initialDealTrace_quiet (c1 c2 c3 c4 : Card) (rest : List Card) :
    ∀ e ∈ Game.initialDealTrace c1 c2 c3 c4 rest, e.quiet := by
  intro e he
  simp only [Game.initialDealTrace, List.mem_cons, List.mem_singleton, List.not_mem_nil,
    or_false] at he
  rcases he with rfl | rfl | rfl | rfl <;> rfl

/-- The shape of every round. -/
theorem Game.play_shape (g : Game) (rnd : Nat → Nat) (input : List Char) :
    ∃ Q : List Event, (∀ e ∈ Q, e.quiet) ∧ (Game.play g rnd input).EndsAfter Q := by
  obtain ⟨c1, c2, c3, c4, rest, hshuf, hlen, -⟩ := Deck.shuffle_reset rnd g.deck
  rw [Game.play_eq g rnd input c1 c2 c3 c4 rest hshuf]
  have hiq := Game.initialDealTrace_quiet c1 c2 c3 c4 rest
  by_cases hr : (Game.afterDeal c1 c2 c3 c4 rest).ruleState = State.PLAYING
  · rw [if_neg (by simpa using hr)]
    have hready : (Game.afterDeal c1 c2 c3 c4 rest).Ready := by
      have := (Game.ruleState_eq_playing_iff _).mp hr
      exact ⟨rfl, by simp [Game.cardCount, Game.afterDeal, hlen], rfl, this.1, this.2⟩
    obtain ⟨Q, hQ, hcase⟩ := Game.turns_shape _ input hready
    refine ⟨Game.initialDealTrace c1 c2 c3 c4 rest ++ [.checked State.PLAYING] ++ Q, ?_, ?_⟩
    · intro e he
      simp only [List.mem_append, List.mem_singleton] at he
      rcases he with (he | rfl) | he
      · exact hiq e he
      · rfl
      · exact hQ e he
    · rcases hcase with hc | ⟨gf, ⟨hc, h1, h2⟩ | ⟨hc, h1, h2, h3, h4, h5⟩⟩
      · left; rw [hc]
      · right; exact ⟨gf, Or.inl ⟨by rw [hc]; simp, h1, h2⟩⟩
      · right
        exact ⟨gf, Or.inr ⟨by rw [hc]; simp, h1, h2, by simp [h3], by simp [h4], h5⟩⟩
  · rw [if_pos (by simpa using hr)]
    exact ⟨Game.initialDealTrace c1 c2 c3 c4 rest, hiq, Or.inr
      ⟨⟨rest, ⟨[c3, c1]⟩, ⟨[c4, c2]⟩, ⟨(Game.afterDeal c1 c2 c3 c4 rest).ruleState⟩⟩,
        Or.inl ⟨rfl, hr, rfl⟩⟩⟩

theorem roundState_append (t1 t2 : List Event) :
    roundState (t1 ++ t2) = t2.foldl Event.stateAfter (roundState t1) := by
  simp [roundState, List.foldl_append]

theorem roundState_quiet (Q : List Event) (hQ : ∀ e ∈ Q, e.quiet) :
    roundState Q = State.PLAYING := by
  induction Q using List.reverseRecOn with
  | nil => rfl
  | append_singleton Q e ih =>
    rw [roundState_append, ih (fun e he => hQ e (by simp [he]))]
    exact hQ e (by simp)

theorem roundState_take_quiet (Q S : List Event) (hQ : ∀ e ∈ Q, e.quiet) (n : Nat)
    (hn : n ≤ Q.length) : roundState ((Q ++ S).take n) = State.PLAYING := by
  rw [List.take_append_of_le_length hn]
  exact roundState_quiet _ (fun e he => hQ e (List.mem_of_mem_take he))

/-- After a run of quiet events, a settling event and an announcement, every prefix
that is longer than the quiet run ends in the state of the settling event. -/
theorem roundState_take_settled (Q : List Event) (e : Event) (a : Announcement)
    (hQ : ∀ e ∈ Q, e.quiet) (n : Nat) (hn : Q.length < n) :
    roundState ((Q ++ [e, .announced a]).take n) = Event.stateAfter State.PLAYING e := by
  rw [List.take_append_eq_append_take, List.take_of_length_le (by omega), roundState_append,
    roundState_quiet Q hQ]
  obtain ⟨k, hk⟩ : ∃ k, n - Q.length = k + 1 := ⟨n - Q.length - 1, by omega⟩
  rw [hk]
  rcases k with _ | k
  · rfl
  · simp [List.take, Event.stateAfter]

/-- In a round of the shape `EndsAfter`, the state does not change once it is not
`PLAYING`, and the game that is returned holds the last state. -/
theorem Exec.EndsAfter.steady {x : Exec Game} {Q : List Event} (h : x.EndsAfter Q)
    (hQ : ∀ e ∈ Q, e.quiet) :
    (∀ pre mid post : List Event, x.trace = pre ++ mid ++ post →
      roundState pre ≠ State.PLAYING → roundState (pre ++ mid) = roundState pre) ∧
    (∀ gf : Game, x.result = .ok gf → gf.gameState.currentState = roundState x.trace) := by
  have key : ∀ (t : List Event) (s : State),
      (∀ n, n ≤ Q.length → roundState (t.take n) = State.PLAYING) →
      (∀ n, Q.length < n → roundState (t.take n) = s) →
      ∀ pre mid post : List Event, t = pre ++ mid ++ post →
        roundState pre ≠ State.PLAYING → roundState (pre ++ mid) = roundState pre := by
    intro t s h1 h2 pre mid post ht hne
    have hpre : pre = t.take pre.length := by rw [ht]; simp
    have hmid : pre ++ mid = t.take (pre ++ mid).length := by
      rw [ht, List.take_left' rfl]
    have hlt : Q.length < pre.length := by
      by_contra hcon
      exact hne (by rw [hpre]; exact h1 _ (by omega))
    rw [hmid, h2 _ (by simp; omega)]
    conv_rhs => rw [hpre]
    rw [h2 _ hlt]
  rcases h with hc | ⟨gf, ⟨hc, h1, h2⟩ | ⟨hc, h1, h2, -⟩⟩
  · subst hc
    refine ⟨key Q State.PLAYING (fun n _ => ?_) (fun n hn => ?_), by simp⟩
    · exact roundState_quiet _ (fun e he => hQ e (List.mem_of_mem_take he))
    · rw [List.take_of_length_le (by omega)]; exact roundState_quiet Q hQ
  · subst hc
    refine ⟨key _ _ (fun n hn => roundState_take_quiet Q _ hQ n hn)
      (fun n hn => roundState_take_settled Q _ _ hQ n hn), ?_⟩
    intro gf' hgf
    simp only [Except.ok.injEq] at hgf
    subst hgf
    have := roundState_take_settled Q (.checked gf.ruleState)
      (GameState.announceState gf.gameState gf.player gf.dealer) hQ (Q.length + 2) (by omega)
    rw [List.take_of_length_le (by simp)] at this
    rw [this, h2]; rfl
  · subst hc
    refine ⟨key _ _ (fun n hn => roundState_take_quiet Q _ hQ n hn)
      (fun n hn => roundState_take_settled Q _ _ hQ n hn), ?_⟩
    intro gf' hgf
    simp only [Except.ok.injEq] at hgf
    subst hgf
    have := roundState_take_settled Q .forcedRoundEnd
      (GameState.announceState gf.gameState gf.player gf.dealer) hQ (Q.length + 2) (by omega)
    rw [List.take_of_length_le (by simp)] at this
    rw [this, h2]; rfl

theorem Game.playerTurn_returns (g : Game) (input : List Char) (h : g.Ready)
    (hs : 's' ∈ input) : (Game.playerTurn g input).result ≠ .error .noInput := by
  induction input generalizing g with
  | nil => simp at hs
  | cons choice input ih =>
    by_cases hh : choice = 'h'
    · subst hh
      have hs' : 's' ∈ input := by simpa using hs
      obtain ⟨g1, hhit, hgs, hd, hc⟩ := Game.hit_ready g h
      have hs1 : g1.gameState.currentState = State.PLAYING := by rw [hgs]; exact h.1
      rw [Game.playerTurn_hit g g1 input hhit hs1]
      by_cases hr : g1.ruleState = State.PLAYING
      · rw [if_neg (by simpa using hr)]
        have hready : ({ g1 with gameState := ⟨g1.ruleState⟩ } : Game).Ready := by
          have := (Game.ruleState_eq_playing_iff g1).mp hr
          exact ⟨hr, by rw [← h.2.1, ← hc]; rfl, by rw [← h.2.2.1, ← hd], this.1, this.2⟩
        exact ih _ hready hs'
      · rw [if_pos (by simpa using hr)]
        simp
    · by_cases hc : choice = 's'
      · subst hc
        rw [Game.playerTurn_stand]
        simp
      · rw [Game.playerTurn_other g choice input hh hc]
        have hs' : 's' ∈ input := by
          simp only [List.mem_cons] at hs
          rcases hs with hs | hs
          · exact absurd hs.symm hc
          · exact hs
        exact ih g h hs'

/-- A round returns whenever the input holds an `s`. -/
theorem Game.play_returns (g : Game) (rnd : Nat → Nat) (input : List Char)
    (hs : 's' ∈ input) : ∃ gf : Game, (Game.play g rnd input).result = .ok gf := by
  obtain ⟨c1, c2, c3, c4, rest, hshuf, hlen, -⟩ := Deck.shuffle_reset rnd g.deck
  obtain ⟨Q, -, hcase⟩ := Game.play_shape g rnd input
  rcases hcase with hc | ⟨gf, ⟨hc, -⟩ | ⟨hc, -⟩⟩
  · exfalso
    rw [Game.play_eq g rnd input c1 c2 c3 c4 rest hshuf] at hc
    by_cases hr : (Game.afterDeal c1 c2 c3 c4 rest).ruleState = State.PLAYING
    · rw [if_neg (by simpa using hr)] at hc
      have hready : (Game.afterDeal c1 c2 c3 c4 rest).Ready := by
        have := (Game.ruleState_eq_playing_iff _).mp hr
        exact ⟨rfl, by simp [Game.cardCount, Game.afterDeal, hlen], rfl, this.1, this.2⟩
      have hres : (Game.turns (Game.afterDeal c1 c2 c3 c4 rest) input).result
          = .error .noInput := by
        have := congrArg Exec.result hc
        simpa using this
      have hpt := Game.playerTurn_returns _ input hready hs
      obtain ⟨Q', -, hcase'⟩ := Game.playerTurn_shape _ input hready
      rcases hcase' with hc' | ⟨g', hc', -, hr'⟩ | ⟨g', hc', -⟩
      · exact hpt (by rw [hc'])
      · obtain ⟨d', deck', hp, -⟩ := hr'.playTurn_ok
        have hfin := Game.finish_eq g' d' deck' hr'.1 hp
        rw [Game.turns, hc', Exec.andThen_ok] at hres
        simp only [if_true] at hres
        rw [hfin] at hres
        split_ifs at hres
      · rw [Game.turns, hc', Exec.andThen_ok] at hres
        simp at hres
    · rw [if_pos (by simpa using hr)] at hc
      have := congrArg Exec.result hc
      simp at this
  · exact ⟨gf, by rw [hc]⟩
  · exact ⟨gf, by rw [hc]⟩

theorem Game.ruleState_cases (g : Game) :
    (g.ruleState = State.PLAYER_BLACKJACK ∧ g.player.getHandValue = 21) ∨
    (g.ruleState = State.DEALER_BLACKJACK ∧ g.dealer.getHandValue = 21 ∧
      g.player.getHandValue ≠ 21) ∨
    (g.ruleState = State.PLAYER_BUST ∧ g.player.getHandValue > 21) ∨
    (g.ruleState = State.DEALER_BUST ∧ g.dealer.getHandValue > 21 ∧
      g.player.getHandValue ≤ 20) ∨
    (g.ruleState = State.PLAYING ∧ g.player.getHandValue ≤ 20 ∧
      g.dealer.getHandValue ≤ 20) := by
  unfold Game.ruleState GameState.checkState
  simp only [if_true]
  split_ifs with h1 h2 h3 h4
  · exact Or.inl ⟨rfl, h1⟩
  · exact Or.inr (Or.inl ⟨rfl, h2, h1⟩)
  · exact Or.inr (Or.inr (Or.inl ⟨rfl, h3⟩))
  · exact Or.inr (Or.inr (Or.inr (Or.inl ⟨rfl, h4, by omega⟩)))
  · exact Or.inr (Or.inr (Or.inr (Or.inr ⟨rfl, by omega, by omega⟩)))

theorem baseSum_cons (c : Card) (cs : List Card) :
    baseSum (c :: cs) = c.getValue + baseSum cs := by
  simp [baseSum]

theorem aceCount_cons (c : Card) (cs : List Card) :
    aceCount (c :: cs) = aceCount cs + (if c.rank = Rank.ACE then 1 else 0) := by
  simp [aceCount, List.countP_cons]

theorem Hand.lowAces_le (hand : List Card) (choices : List Bool) :
    Hand.lowAces hand choices ≤ aceCount hand := by
  induction hand generalizing choices with
  | nil => simp [Hand.lowAces]
  | cons c cs ih =>
    have := ih choices.tail
    rw [Hand.lowAces, aceCount_cons]
    split_ifs with h1 h2 h2
    · omega
    · exact absurd h1.1 h2
    · omega
    · omega

theorem Hand.totalWith_eq (hand : List Card) (choices : List Bool) :
    Hand.totalWith hand choices = baseSum hand - 10 * (Hand.lowAces hand choices : Int) := by
  induction hand generalizing choices with
  | nil => simp [Hand.totalWith, Hand.lowAces, baseSum]
  | cons c cs ih =>
    rw [Hand.totalWith, Hand.lowAces, baseSum_cons, ih choices.tail]
    split_ifs with h1
    · have := (Card.getValue_eq_eleven_iff c).mpr h1.1
      push_cast; omega
    · push_cast; omega

theorem Hand.lowAces_lowFirst (hand : List Card) (k : Nat) (hk : k ≤ aceCount hand) :
    Hand.lowAces hand (Hand.lowFirst hand k) = k := by
  induction hand generalizing k with
  | nil =>
    have : k = 0 := by simpa [aceCount] using hk
    subst this; rfl
  | cons c cs ih =>
    rw [aceCount_cons] at hk
    by_cases ha : c.rank = Rank.ACE
    · rw [if_pos ha] at hk
      cases k with
      | zero =>
        have := ih 0 (Nat.zero_le _)
        simp [Hand.lowFirst, Hand.lowAces, ha, this]
      | succ k =>
        have := ih k (by omega)
        simp [Hand.lowFirst, Hand.lowAces, ha, this]; omega
    · rw [if_neg ha] at hk
      have := ih k (by omega)
      simp [Hand.lowFirst, Hand.lowAces, ha, this]

/-- A card added to a hand of at most 16 gives a hand of at most 26. -/
theorem Hand.getValue_cons_le (c : Card) (hand : List Card)
    (h : Hand.getValue hand ≤ 16) : Hand.getValue (c :: hand) ≤ 26 := by
  obtain ⟨k, hk, hval, -, -⟩ := Hand.softenLoop_spec (aceCount hand) (baseSum hand)
  obtain ⟨k', hk', hval', hmin', hor'⟩ :=
    Hand.softenLoop_spec (aceCount (c :: hand)) (baseSum (c :: hand))
  rw [← Hand.getValue_eq] at hval hval'
  rw [baseSum_cons] at hval' hmin' hor'
  rw [aceCount_cons] at hk' hor'
  have hb := Card.getValue_bounds c
  have he := Card.getValue_eq_eleven_iff c
  rw [hval'] 
  rw [hval] at h
  by_cases ha : c.rank = Rank.ACE
  · rw [if_pos ha] at hk' hor'
    have h11 := he.mpr ha
    rcases hor' with hor' | hor'
    · omega
    · subst hor'; push_cast; omega
  · rw [if_neg ha] at hk' hor'
    have hne : c.getValue ≠ 11 := fun h11 => ha (he.mp h11)
    rcases hor' with hor' | hor'
    · omega
    · subst hor'; omega

theorem Deck.shuffleLoop_eq_swapLoop (rnd : Nat → Nat) (i : Nat) (cards : List (Option Card)) :
    Deck.shuffleLoop rnd i cards = Deck.swapLoop (Deck.swapIndex rnd) i cards := by
  induction i generalizing cards with
  | zero => rfl
  | succ i ih =>
    rw [Deck.shuffleLoop, Deck.swapLoop, ih]
    rfl

theorem Deck.swapIndex_le (rnd : Nat → Nat) (i : Nat) : Deck.swapIndex rnd i ≤ i :=
  Nat.lt_succ_iff.mp (Nat.mod_lt _ (Nat.succ_pos i))

theorem Deck.swapSlots_length (cards : List (Option Card)) (i j : Nat) :
    (Deck.swapSlots cards i j).length = cards.length := by
  simp [Deck.swapSlots]

theorem Deck.swapLoop_length (js : Nat → Nat) (i : Nat) (cards : List (Option Card)) :
    (Deck.swapLoop js i cards).length = cards.length := by
  induction i generalizing cards with
  | zero => rfl
  | succ i ih => rw [Deck.swapLoop, ih, Deck.swapSlots_length]

theorem Deck.swapSlots_append (q s : List (Option Card)) (a b : Nat)
    (ha : a < q.length) (hb : b < q.length) :
    Deck.swapSlots (q ++ s) a b = Deck.swapSlots q a b ++ s := by
  simp only [Deck.swapSlots]
  rw [List.getD_append _ _ _ _ ha, List.getD_append _ _ _ _ hb,
    List.set_append_left _ _ ha, List.set_append_left _ _ (by simpa using hb)]

/-- A swap of the last position with position `j`. -/
theorem Deck.swapSlots_last (p : List (Option Card)) (y : Option Card) (n j : Nat)
    (hn : p.length = n) (hj : j ≤ n) :
    Deck.swapSlots (p ++ [y]) n j = p.set j y ++ [(p ++ [y]).getD j none] := by
  subst hn
  simp only [Deck.swapSlots]
  have hlast : (p ++ [y]).getD p.length none = y := by simp [List.getD]
  rw [hlast]
  rcases Nat.lt_or_eq_of_le hj with hlt | heq
  · rw [List.set_append_right _ _ (le_refl _), Nat.sub_self, List.set_cons_zero,
      List.set_append_left _ _ hlt]
  · subst heq
    rw [hlast, List.set_append_right _ _ (le_refl _), Nat.sub_self, List.set_cons_zero,
      List.set_append_right _ _ (le_refl _), Nat.sub_self, List.set_cons_zero,
      List.set_eq_of_length_le (le_refl _)]

theorem List.exists_eq_append_last {α : Type} (l : List α) (n : Nat) (h : l.length = n + 1) :
    ∃ (p : List α) (y : α), l = p ++ [y] ∧ p.length = n := by
  have hne : l ≠ [] := by intro h0; simp [h0] at h
  refine ⟨l.dropLast, l.getLast hne, (List.dropLast_append_getLast hne).symm, ?_⟩
  simp [h]

/-- The loop entered with `i` touches the first `i + 1` positions only. -/
theorem Deck.swapLoop_append (js : Nat → Nat) (hjs : ∀ k, js k ≤ k) (i : Nat)
    (q s : List (Option Card)) (hq : q.length = i + 1) :
    Deck.swapLoop js i (q ++ s) = Deck.swapLoop js i q ++ s := by
  induction i generalizing q s with
  | zero => rfl
  | succ i ih =>
    obtain ⟨p, y, rfl, hp⟩ := List.exists_eq_append_last q (i + 1) hq
    have hj : js (i + 1) ≤ i + 1 := hjs _
    rw [Deck.swapLoop, Deck.swapLoop,
      Deck.swapSlots_append (p ++ [y]) s (i + 1) (js (i + 1)) (by simp [hp])
        (by simp; omega)]
    rw [Deck.swapSlots_last p y _ _ hp hj, List.append_assoc,
      ih _ _ (by simp [hp]), ih _ _ (by simp [hp]), List.append_assoc]

/-- One round of the loop: the last position receives the card at the swap index, and
the loop goes on with the other positions. -/
theorem Deck.swapLoop_last (js : Nat → Nat) (hjs : ∀ k, js k ≤ k) (i : Nat)
    (p : List (Option Card)) (y : Option Card) (hp : p.length = i + 1) :
    Deck.swapLoop js (i + 1) (p ++ [y]) =
      Deck.swapLoop js i (p.set (js (i + 1)) y) ++ [(p ++ [y]).getD (js (i + 1)) none] := by
  rw [Deck.swapLoop, Deck.swapSlots_last p y _ _ hp (hjs _),
    Deck.swapLoop_append js hjs i _ _ (by simp [hp])]

theorem Deck.swapLoop_congr (js js' : Nat → Nat) (i : Nat) (cards : List (Option Card))
    (h : ∀ k, 1 ≤ k → k ≤ i → js k = js' k) :
    Deck.swapLoop js i cards = Deck.swapLoop js' i cards := by
  induction i generalizing cards with
  | zero => rfl
  | succ i ih =>
    rw [Deck.swapLoop, Deck.swapLoop, h (i + 1) (by omega) (le_refl _)]
    exact ih _ (fun k h1 h2 => h k h1 (by omega))

theorem List.getD_inj_of_nodup {α : Type} (l : List α) (d : α) (hl : l.Nodup) (a b : Nat)
    (ha : a < l.length) (hb : b < l.length) (h : l.getD a d = l.getD b d) : a = b := by
  have h1 : l.getD a d = l[a] := by simp [List.getD, ha]
  have h2 : l.getD b d = l[b] := by simp [List.getD, hb]
  rw [h1, h2] at h
  exact (List.Nodup.getElem_inj_iff hl).mp h

theorem Deck.swapSlots_last_perm (p : List (Option Card)) (y : Option Card) (n j : Nat)
    (hn : p.length = n) (hj : j ≤ n) :
    (p.set j y ++ [(p ++ [y]).getD j none]).Perm (p ++ [y]) := by
  rw [← Deck.swapSlots_last p y n j hn hj]
  exact Deck.swapSlots_perm _ _ _ (by simp [hn]) (by simp; omega)

/-- Different index sequences give different orders of distinct cards. -/
theorem Deck.swapLoop_injective (i : Nat) :
    ∀ l : List (Option Card), l.length = i + 1 → l.Nodup →
      ∀ js js' : Nat → Nat, (∀ k, js k ≤ k) → (∀ k, js' k ≤ k) →
        Deck.swapLoop js i l = Deck.swapLoop js' i l →
        ∀ k, 1 ≤ k → k ≤ i → js k = js' k := by
  induction i with
  | zero => intro l _ _ js js' _ _ _ k h1 h2; omega
  | succ i ih =>
    intro l hl hnd js js' hjs hjs' heq k h1 h2
    obtain ⟨p, y, rfl, hp⟩ := List.exists_eq_append_last l (i + 1) hl
    rw [Deck.swapLoop_last js hjs i p y hp, Deck.swapLoop_last js' hjs' i p y hp] at heq
    obtain ⟨hpre, hlast⟩ := List.append_inj' heq rfl
    have hj : js (i + 1) = js' (i + 1) := by
      have hx := (List.cons.inj hlast).1
      have b1 := hjs (i + 1)
      have b2 := hjs' (i + 1)
      exact List.getD_inj_of_nodup (p ++ [y]) none hnd _ _ (by simp [hp]; omega)
        (by simp [hp]; omega) hx
    rcases Nat.lt_or_eq_of_le h2 with hlt | heqk
    · rw [← hj] at hpre
      have hnd' : (p.set (js (i + 1)) y).Nodup := by
        have hperm := Deck.swapSlots_last_perm p y (i + 1) (js (i + 1)) hp (hjs _)
        have := hperm.nodup_iff.mpr hnd
        exact (List.nodup_append.mp this).1
      exact ih _ (by simp [hp]) hnd' js js' hjs hjs' hpre k h1 (by omega)
    · rw [heqk]; exact hj

/-- Every permutation is the result of some index sequence. -/
theorem Deck.swapLoop_surjective (i : Nat) :
    ∀ l target : List (Option Card), l.length = i + 1 → target.Perm l →
      ∃ js : Nat → Nat, (∀ k, js k ≤ k) ∧ Deck.swapLoop js i l = target := by
  induction i with
  | zero =>
    intro l target hl hperm
    refine ⟨fun _ => 0, fun _ => Nat.zero_le _, ?_⟩
    obtain ⟨p, y, rfl, hp⟩ := List.exists_eq_append_last l 0 hl
    have : p = [] := List.length_eq_zero.mp hp
    subst this
    simpa [Deck.swapLoop] using (List.perm_singleton.mp hperm).symm
  | succ i ih =>
    intro l target hl hperm
    obtain ⟨p, y, rfl, hp⟩ := List.exists_eq_append_last l (i + 1) hl
    obtain ⟨t, x, rfl, ht⟩ := List.exists_eq_append_last target (i + 1)
      (by rw [hperm.length_eq]; exact hl)
    have hx : x ∈ p ++ [y] := hperm.subset (by simp)
    obtain ⟨j, hj⟩ := List.mem_iff_getElem?.mp hx
    have hjlt : j < (p ++ [y]).length := by
      by_contra hcon
      rw [List.getElem?_eq_none (by omega)] at hj
      exact absurd hj (by simp)
    have hjle : j ≤ i + 1 := by simp [hp] at hjlt; omega
    have hxj : (p ++ [y]).getD j none = x := by
      rw [List.getD_eq_getElem?_getD, hj]; rfl
    have hperm' : (p.set j y).Perm t := by
      have h1 := Deck.swapSlots_last_perm p y (i + 1) j hp hjle
      rw [hxj] at h1
      exact (List.perm_append_right_iff [x]).mp (h1.trans hperm.symm)
    obtain ⟨js0, hjs0, hloop⟩ := ih (p.set j y) t (by simp [hp]) hperm'.symm
    refine ⟨fun k => if k = i + 1 then j else js0 k, fun k => ?_, ?_⟩
    · by_cases hk : k = i + 1
      · simp only [hk, if_true]; exact hjle
      · simp only [hk, if_false]; exact hjs0 k
    · rw [Deck.swapLoop_last _ (fun k => by
          by_cases hk : k = i + 1
          · simp only [hk, if_true]; exact hjle
          · simp only [hk, if_false]; exact hjs0 k) i p y hp]
      simp only [if_true]
      rw [hxj, Deck.swapLoop_congr _ js0 i _ (fun k _ h2 => by
        have : k ≠ i + 1 := by omega
        simp [this]), hloop]

theorem Deck.relink_eq_ok_iff (cards : List (Option Card)) (deck : Deck) :
    Deck.relink cards = .ok deck ↔ cards = deck.map some := by
  constructor
  · intro h
    induction cards generalizing deck with
    | nil => simp [Deck.relink] at h; simp [← h]
    | cons x t ih =>
      cases x with
      | none => simp [Deck.relink] at h
      | some c =>
        cases hr : Deck.relink t with
        | error e => simp [Deck.relink, hr] at h
        | ok d =>
          simp only [Deck.relink, hr, Except.ok.injEq] at h
          subst h
          simp [ih d hr]
  · rintro rfl
    exact Deck.relink_map_some deck

/-- On a full deck `Deck::shuffle` returns `deck'` exactly when the swap loop turns the
cards into `deck'`. -/
theorem Deck.shuffle_eq_ok_iff (rnd : Nat → Nat) (deck deck' : Deck)
    (h : deck.length = DECK_SIZE) :
    Deck.shuffle rnd deck = .ok deck' ↔
      Deck.swapLoop (Deck.swapIndex rnd) (DECK_SIZE - 1) (deck.map some) = deck'.map some := by
  simp only [Deck.shuffle, Deck.gather_full deck h, Deck.relink_eq_ok_iff,
    Deck.shuffleLoop_eq_swapLoop]

/-- The swap loop, written as a fold over the values `n`, `n - 1`, ..., 1 of its
loop variable. -/
theorem Deck.swapLoop_eq_foldl (js : Nat → Nat) (n : Nat) (cards : List (Option Card)) :
    Deck.swapLoop js n cards =
      ((List.range n).map (fun k => n - k)).foldl
        (fun cs i => Deck.swapSlots cs i (js i)) cards := by
  induction n generalizing cards with
  | zero => rfl
  | succ n ih =>
    rw [Deck.swapLoop, ih, List.range_succ_eq_map]
    simp only [List.map_cons, List.map_map, List.foldl_cons, Nat.sub_zero]
    congr 1
    apply List.map_congr_left
    intro k _
    simp

/-! ## The claims -/

/-- C1: for every hand (the empty one included) `Hand::getValue` returns `S - 10 * k`,
where `S` is the sum of the base values with every Ace counted as 11, `a` is the
number of Aces and `k` is the least number in `0..a` with `S - 10 * k <= 21`, or
`k = a` when there is none.  An Ace and a King score 21, two Aces and a Nine score 21,
six Aces score 16. -/
theorem Hand.getValue_softening :
    (∀ hand : Hand, ∃ k : Nat, k ≤ aceCount hand ∧
      Hand.getValue hand = baseSum hand - 10 * (k : Int) ∧
      (∀ j : Nat, j < k → 21 < baseSum hand - 10 * (j : Int)) ∧
      (baseSum hand - 10 * (k : Int) ≤ 21 ∨ k = aceCount hand)) ∧
    (∀ s1 s2 : Suit, Hand.getValue [⟨s1, .ACE⟩, ⟨s2, .KING⟩] = 21) ∧
    (∀ s1 s2 s3 : Suit, Hand.getValue [⟨s1, .ACE⟩, ⟨s2, .ACE⟩, ⟨s3, .NINE⟩] = 21) ∧
    (∀ s1 s2 s3 s4 s5 s6 : Suit,
      Hand.getValue
        [⟨s1, .ACE⟩, ⟨s2, .ACE⟩, ⟨s3, .ACE⟩, ⟨s4, .ACE⟩, ⟨s5, .ACE⟩, ⟨s6, .ACE⟩] = 16) := by
  refine ⟨fun hand => ?_, fun _ _ => rfl, fun _ _ _ => rfl, fun _ _ _ _ _ _ => rfl⟩
  rw [Hand.getValue_eq]
  exact Hand.softenLoop_spec (aceCount hand) (baseSum hand)

/-- Witness of C1 at the hand Ace, Ace, Nine: `S = 31`, `a = 2`, and the `k` of the
claim exists there. -/
theorem Hand.getValue_softening_witness :
    baseSum [⟨.SPADES, .ACE⟩, ⟨.HEARTS, .ACE⟩, ⟨.CLUBS, .NINE⟩] = 31 ∧
    aceCount [⟨.SPADES, .ACE⟩, ⟨.HEARTS, .ACE⟩, ⟨.CLUBS, .NINE⟩] = 2 ∧
    ∃ k : Nat, k ≤ 2 ∧
      Hand.getValue [⟨.SPADES, .ACE⟩, ⟨.HEARTS, .ACE⟩, ⟨.CLUBS, .NINE⟩] = 31 - 10 * (k : Int) ∧
      (∀ j : Nat, j < k → 21 < 31 - 10 * (j : Int)) ∧
      (31 - 10 * (k : Int) ≤ 21 ∨ k = 2) :=
  ⟨by decide, by decide,
    Hand.getValue_softening.1 [⟨.SPADES, .ACE⟩, ⟨.HEARTS, .ACE⟩, ⟨.CLUBS, .NINE⟩]⟩

/-- C2: the hand total does not depend on the order of the cards: adding the cards
of a list to an empty hand with `Hand::addCard`, or the cards of any permutation of
the list, gives hands with the same `Hand::getValue`. -/
theorem Hand.getValue_order_independent (cs cs' : List Card) (h : cs.Perm cs') :
    ∃ hand hand' : Hand, Hand.addCards [] cs = .ok hand ∧ Hand.addCards [] cs' = .ok hand' ∧
      Hand.getValue hand = Hand.getValue hand' := by
  refine ⟨cs.reverse ++ [], cs'.reverse ++ [], Hand.addCards_eq _ _, Hand.addCards_eq _ _, ?_⟩
  apply Hand.getValue_perm
  simpa using ((List.reverse_perm cs).trans h).trans (List.reverse_perm cs').symm

/-- Witness of C2: Ace, Five, Six added in two different orders. -/
theorem Hand.getValue_order_independent_witness :
    ∃ hand hand' : Hand,
      Hand.addCards [] [⟨.SPADES, .ACE⟩, ⟨.HEARTS, .FIVE⟩, ⟨.CLUBS, .SIX⟩] = .ok hand ∧
      Hand.addCards [] [⟨.HEARTS, .FIVE⟩, ⟨.SPADES, .ACE⟩, ⟨.CLUBS, .SIX⟩] = .ok hand' ∧
      Hand.getValue hand = Hand.getValue hand' :=
  Hand.getValue_order_independent _ _ (List.Perm.swap _ _ _)

/-- C3: `Card::getValue` depends on the rank only: for every suit an Ace gives 11,
Jack, Queen and King give 10, the ranks Two to Ten give 2 to 10; every value lies in
`2..11` and only an Ace has the value 11. -/
theorem Card.getValue_by_rank :
    (∀ s : Suit,
      Card.getValue ⟨s, .ACE⟩ = 11 ∧
      Card.getValue ⟨s, .JACK⟩ = 10 ∧ Card.getValue ⟨s, .QUEEN⟩ = 10 ∧
      Card.getValue ⟨s, .KING⟩ = 10 ∧
      Card.getValue ⟨s, .TWO⟩ = 2 ∧ Card.getValue ⟨s, .THREE⟩ = 3 ∧
      Card.getValue ⟨s, .FOUR⟩ = 4 ∧ Card.getValue ⟨s, .FIVE⟩ = 5 ∧
      Card.getValue ⟨s, .SIX⟩ = 6 ∧ Card.getValue ⟨s, .SEVEN⟩ = 7 ∧
      Card.getValue ⟨s, .EIGHT⟩ = 8 ∧ Card.getValue ⟨s, .NINE⟩ = 9 ∧
      Card.getValue ⟨s, .TEN⟩ = 10) ∧
    (∀ (s s' : Suit) (r : Rank), Card.getValue ⟨s, r⟩ = Card.getValue ⟨s', r⟩) ∧
    (∀ c : Card, 2 ≤ c.getValue ∧ c.getValue ≤ 11 ∧ (c.getValue = 11 ↔ c.rank = Rank.ACE)) := by
  refine ⟨fun s => ?_, fun _ _ _ => rfl, fun c => ?_⟩
  · exact ⟨rfl, rfl, rfl, rfl, rfl, rfl, rfl, rfl, rfl, rfl, rfl, rfl, rfl⟩
  · exact ⟨(Card.getValue_bounds c).1, (Card.getValue_bounds c).2,
      Card.getValue_eq_eleven_iff c⟩

/-- C4: whatever the deck held before (all cards, some, none), after `Deck::reset` it
holds exactly 52 cards and every one of the 4 x 13 pairs of a suit and a rank occurs
exactly once. -/
theorem Deck.reset_full_deck (deck : Deck) :
    (Deck.reset deck).length = 52 ∧
    (∀ (s : Suit) (r : Rank), (Deck.reset deck).count ⟨s, r⟩ = 1) ∧
    (Deck.reset deck).Nodup := by
  rw [Deck.reset_eq deck]
  refine ⟨by decide, fun s r => ?_, by decide⟩
  cases s <;> cases r <;> rfl

/-- C5 fails on a partly dealt deck: after one card was dealt from the fresh deck,
51 cards are left, and `Deck::shuffle` still runs its swap loop and its relinking loop
over all `DECK_SIZE` slots of the array; one of them was never written, so the call
has no defined result, for every sequence of random numbers.  (On a deck of
`DECK_SIZE` cards the result is a permutation, see `Deck.shuffle_full`.) -/
theorem Deck.shuffle_partly_dealt (rnd : Nat → Nat) :
    (Deck.deal (Deck.reset [])).2.length = 51 ∧
    Deck.shuffle rnd (Deck.deal (Deck.reset [])).2 = .error .uninitRead :=
  ⟨by decide, Deck.shuffle_short rnd _ (by decide)⟩

/-- C6: on a non-empty deck `Deck::deal` returns the first card and leaves the
remaining cards in unchanged order: the deck is one card shorter, and the returned
card is no longer in it (a deck holds no card twice). -/
theorem Deck.deal_nonempty (deck : Deck) (h : deck ≠ []) :
    ∃ (c : Card) (rest : List Card), deck = c :: rest ∧
      Deck.deal deck = (some c, rest) ∧
      (Deck.deal deck).2.length + 1 = deck.length ∧
      (deck.Nodup → c ∉ (Deck.deal deck).2) := by
  cases deck with
  | nil => exact absurd rfl h
  | cons c rest =>
    refine ⟨c, rest, rfl, rfl, rfl, fun hnd => ?_⟩
    exact (List.nodup_cons.mp hnd).1

/-- Witness of C6 at the freshly reset deck: its first card is dealt, 51 cards remain
and the dealt card is not among them. -/
theorem Deck.deal_nonempty_witness :
    ∃ (c : Card) (rest : List Card), Deck.reset [] = c :: rest ∧
      Deck.deal (Deck.reset []) = (some c, rest) ∧
      (Deck.deal (Deck.reset [])).2.length + 1 = 52 ∧
      c ∉ (Deck.deal (Deck.reset [])).2 := by
  obtain ⟨c, rest, h1, h2, h3, h4⟩ := Deck.deal_nonempty (Deck.reset []) (by decide)
  exact ⟨c, rest, h1, h2, h3, h4 (by decide)⟩

/-- C7, as stated, fails: on an empty deck `Deck::deal` returns the null card and
reports no failure, and the draw of `Player::hit` and of `Dealer::playTurn` then
dereferences that null card instead of leaving the hand as it was. -/
theorem Deck.deal_on_empty_gives_null :
    (Deck.deal ([] : Deck)).1 = none ∧
    Player.hit ⟨[]⟩ [] = .error .nullDeref ∧
    Dealer.playTurn ⟨[]⟩ [] = .error .nullDeref := by
  exact ⟨rfl, rfl, rfl⟩

/-- C7, amended: on an empty deck `Deck::deal` returns the null card and leaves the
deck empty. -/
theorem Deck.deal_empty_deck : Deck.deal ([] : Deck) = (none, []) := rfl

/-- C8: card conservation.  In every round of `Game::play`, for every outcome of the
shuffle and every input of the player, the round starts with the four deals of the
initial deal, and after every deal to the player or the dealer the deck and the two
hands hold 52 cards together. -/
theorem Game.play_conserves_cards (g : Game) (rnd : Nat → Nat) (input : List Char) :
    (∃ (g1 g2 g3 g4 : Game) (rest : List Event),
      (Game.play g rnd input).trace =
        .dealtPlayer g1 :: .dealtDealer g2 :: .dealtPlayer g3 :: .dealtDealer g4 :: rest) ∧
    (∀ g' : Game,
      Event.dealtPlayer g' ∈ (Game.play g rnd input).trace ∨
        Event.dealtDealer g' ∈ (Game.play g rnd input).trace →
      g'.deck.length + g'.player.hand.length + g'.dealer.hand.length = 52) := by
  refine ⟨Game.play_trace_start g rnd input, fun g' hg' => ?_⟩
  rcases hg' with h | h
  · exact (Game.play_keeps g rnd input).1 _ h
  · exact (Game.play_keeps g rnd input).1 _ h

/-- Witness of C8: in the round with all random numbers 0 and the input `s`, the
fourth deal leaves 48 cards in the deck and two in each hand. -/
theorem Game.play_conserves_cards_witness :
    Event.dealtDealer
        ⟨(Deck.reset []).drop 5 ++ [⟨.SPADES, .ACE⟩],
          ⟨[⟨.SPADES, .JACK⟩, ⟨.SPADES, .KING⟩]⟩, ⟨[⟨.SPADES, .TEN⟩, ⟨.SPADES, .QUEEN⟩]⟩,
          ⟨State.PLAYING⟩⟩ ∈
      (Game.play ⟨[], ⟨[]⟩, ⟨[]⟩, ⟨State.ROUND_END⟩⟩ (fun _ => 0) ['s']).trace ∧
    ((Deck.reset []).drop 5 ++ [(⟨.SPADES, .ACE⟩ : Card)]).length + 2 + 2 = 52 := by
  have hm : Event.dealtDealer
      ⟨(Deck.reset []).drop 5 ++ [⟨.SPADES, .ACE⟩],
        ⟨[⟨.SPADES, .JACK⟩, ⟨.SPADES, .KING⟩]⟩, ⟨[⟨.SPADES, .TEN⟩, ⟨.SPADES, .QUEEN⟩]⟩,
        ⟨State.PLAYING⟩⟩ ∈
      (Game.play ⟨[], ⟨[]⟩, ⟨[]⟩, ⟨State.ROUND_END⟩⟩ (fun _ => 0) ['s']).trace := by
    decide
  exact ⟨hm,
    (Game.play_conserves_cards ⟨[], ⟨[]⟩, ⟨[]⟩, ⟨State.ROUND_END⟩⟩ (fun _ => 0) ['s']).2 _
      (Or.inr hm)⟩

/-- C9: the dealer never stops below 17 and never draws at 17 or more.  Whenever
`Dealer::playTurn` returns (no draw met an empty deck) it has drawn the first `n`
cards of the deck, the total was below 17 before each draw and is at least 17 at the
end; a deck of 17 cards or more is always enough for it to return; and with a total of
17 or more at the start (the soft 17 of an Ace and a Six included) it draws nothing
and leaves the hand and the deck unchanged. -/
theorem Dealer.playTurn_policy (dealer : Dealer) (deck : Deck) :
    (∀ (d' : Dealer) (deck' : Deck), Dealer.playTurn dealer deck = .ok (d', deck') →
      ∃ n : Nat, n ≤ deck.length ∧
        d'.hand = Dealer.handAfter dealer deck n ∧ deck' = deck.drop n ∧
        17 ≤ d'.getHandValue ∧
        (∀ m : Nat, m < n → Hand.getValue (Dealer.handAfter dealer deck m) < 17) ∧
        Dealer.playTurnDraws dealer deck = Dealer.drawStates dealer deck n) ∧
    (17 ≤ deck.length →
      ∃ (d' : Dealer) (deck' : Deck), Dealer.playTurn dealer deck = .ok (d', deck')) ∧
    (17 ≤ dealer.getHandValue →
      Dealer.playTurn dealer deck = .ok (dealer, deck) ∧
      Dealer.playTurnDraws dealer deck = []) ∧
    (∀ s1 s2 : Suit,
      Dealer.playTurn ⟨[⟨s1, .ACE⟩, ⟨s2, .SIX⟩]⟩ deck =
        .ok (⟨[⟨s1, .ACE⟩, ⟨s2, .SIX⟩]⟩, deck)) := by
  refine ⟨fun d' deck' h => ?_, fun hlen => ?_, fun h17 => ?_, fun s1 s2 => ?_⟩
  · obtain ⟨n, hn, -, hh, hdk, h17, hlt, hdr⟩ :=
      Dealer.playTurnLoop_ok (deck.length + 1) dealer deck
        (Dealer.playTurnDraws dealer deck) d' deck' (Prod.ext rfl h)
    exact ⟨n, hn, hh, hdk, h17, hlt, hdr⟩
  · obtain ⟨draws, d', deck', h⟩ :=
      Dealer.playTurnLoop_reaches (deck.length + 1) dealer deck 17 hlen (by omega)
        (le_trans (by simp [Dealer.handAfter, List.length_take, hlen])
          (Hand.length_le_getValue _))
    exact ⟨d', deck', by simp [Dealer.playTurn, h]⟩
  · have h := Dealer.playTurnLoop_stop deck.length dealer deck h17
    exact ⟨by simp [Dealer.playTurn, h], by simp [Dealer.playTurnDraws, h]⟩
  · have h17 : (17 : Int) = Hand.getValue [⟨s1, .ACE⟩, ⟨s2, .SIX⟩] := rfl
    have h := Dealer.playTurnLoop_stop deck.length ⟨[⟨s1, .ACE⟩, ⟨s2, .SIX⟩]⟩ deck
      (le_of_eq h17)
    simp [Dealer.playTurn, h]

/-- Witness of C9: a dealer with Five and Six (11) in front of the freshly reset deck
draws the Ace of Spades (12) and the King of Spades (22) and stops; the deck has
more than 17 cards; and a dealer with Ten and Seven draws nothing. -/
theorem Dealer.playTurn_policy_witness :
    (∃ n : Nat, n ≤ (Deck.reset []).length ∧
      [⟨.SPADES, .KING⟩, ⟨.SPADES, .ACE⟩, ⟨.HEARTS, .FIVE⟩, ⟨.HEARTS, .SIX⟩] =
        Dealer.handAfter ⟨[⟨.HEARTS, .FIVE⟩, ⟨.HEARTS, .SIX⟩]⟩ (Deck.reset []) n ∧
      (17 : Int) ≤ Hand.getValue
        [⟨.SPADES, .KING⟩, ⟨.SPADES, .ACE⟩, ⟨.HEARTS, .FIVE⟩, ⟨.HEARTS, .SIX⟩]) ∧
    (∃ (d' : Dealer) (deck' : Deck),
      Dealer.playTurn ⟨[⟨.HEARTS, .FIVE⟩, ⟨.HEARTS, .SIX⟩]⟩ (Deck.reset []) = .ok (d', deck')) ∧
    Dealer.playTurn ⟨[⟨.HEARTS, .TEN⟩, ⟨.CLUBS, .SEVEN⟩]⟩ (Deck.reset []) =
      .ok (⟨[⟨.HEARTS, .TEN⟩, ⟨.CLUBS, .SEVEN⟩]⟩, Deck.reset []) := by
  have h := Dealer.playTurn_policy ⟨[⟨.HEARTS, .FIVE⟩, ⟨.HEARTS, .SIX⟩]⟩ (Deck.reset [])
  have h' := Dealer.playTurn_policy ⟨[⟨.HEARTS, .TEN⟩, ⟨.CLUBS, .SEVEN⟩]⟩ (Deck.reset [])
  refine ⟨?_, h.2.1 (by decide), (h'.2.2.1 (by decide)).1⟩
  obtain ⟨n, hn, hh, -, h17, -, -⟩ := h.1
    ⟨[⟨.SPADES, .KING⟩, ⟨.SPADES, .ACE⟩, ⟨.HEARTS, .FIVE⟩, ⟨.HEARTS, .SIX⟩]⟩
    ((Deck.reset []).drop 2) rfl
  exact ⟨n, hn, hh, h17⟩

/-- C10: called in state `PLAYING`, `GameState::checkState` stores and returns the
state chosen by this priority: player total 21 gives `PLAYER_BLACKJACK`; else dealer
total 21 gives `DEALER_BLACKJACK`; else player total above 21 gives `PLAYER_BUST`;
else dealer total above 21 gives `DEALER_BUST`; else the state stays `PLAYING`. -/
theorem GameState.checkState_priority (player : Player) (dealer : Dealer) :
    ∃ s : State, GameState.checkState ⟨State.PLAYING⟩ player dealer = (⟨s⟩, s) ∧
      (player.getHandValue = 21 → s = State.PLAYER_BLACKJACK) ∧
      (player.getHandValue ≠ 21 → dealer.getHandValue = 21 → s = State.DEALER_BLACKJACK) ∧
      (player.getHandValue ≠ 21 → dealer.getHandValue ≠ 21 → player.getHandValue > 21 →
        s = State.PLAYER_BUST) ∧
      (player.getHandValue ≠ 21 → dealer.getHandValue ≠ 21 → ¬ player.getHandValue > 21 →
        dealer.getHandValue > 21 → s = State.DEALER_BUST) ∧
      (player.getHandValue ≠ 21 → dealer.getHandValue ≠ 21 → ¬ player.getHandValue > 21 →
        ¬ dealer.getHandValue > 21 → s = State.PLAYING) := by
  by_cases h1 : player.getHandValue = 21
  · exact ⟨State.PLAYER_BLACKJACK, by simp [GameState.checkState, h1], by simp [h1]⟩
  by_cases h2 : dealer.getHandValue = 21
  · exact ⟨State.DEALER_BLACKJACK, by simp [GameState.checkState, h1, h2], by simp [h1, h2]⟩
  by_cases h3 : player.getHandValue > 21
  · exact ⟨State.PLAYER_BUST, by simp [GameState.checkState, h1, h2, h3],
      by simp [h1, h2, h3]⟩
  by_cases h4 : dealer.getHandValue > 21
  · exact ⟨State.DEALER_BUST, by simp [GameState.checkState, h1, h2, h3, h4],
      by simp [h1, h2, h3, h4]⟩
  · exact ⟨State.PLAYING, by simp [GameState.checkState, h1, h2, h3, h4],
      by simp [h1, h2, h3, h4]⟩

/-- Witness of C10: with both totals 21 the result is `PLAYER_BLACKJACK`, and with
the player bust at 25 against a dealer total of 21 it is `DEALER_BLACKJACK`. -/
theorem GameState.checkState_priority_witness :
    GameState.checkState ⟨State.PLAYING⟩
        ⟨[⟨.SPADES, .ACE⟩, ⟨.SPADES, .KING⟩]⟩ ⟨[⟨.HEARTS, .ACE⟩, ⟨.HEARTS, .QUEEN⟩]⟩
      = (⟨State.PLAYER_BLACKJACK⟩, State.PLAYER_BLACKJACK) ∧
    GameState.checkState ⟨State.PLAYING⟩
        ⟨[⟨.SPADES, .FIVE⟩, ⟨.SPADES, .QUEEN⟩, ⟨.SPADES, .KING⟩]⟩
        ⟨[⟨.HEARTS, .ACE⟩, ⟨.HEARTS, .QUEEN⟩]⟩
      = (⟨State.DEALER_BLACKJACK⟩, State.DEALER_BLACKJACK) := by
  constructor
  · obtain ⟨s, hs, h1, -⟩ := GameState.checkState_priority
      ⟨[⟨.SPADES, .ACE⟩, ⟨.SPADES, .KING⟩]⟩ ⟨[⟨.HEARTS, .ACE⟩, ⟨.HEARTS, .QUEEN⟩]⟩
    rw [hs, h1 (by decide)]
  · obtain ⟨s, hs, -, h2, -⟩ := GameState.checkState_priority
      ⟨[⟨.SPADES, .FIVE⟩, ⟨.SPADES, .QUEEN⟩, ⟨.SPADES, .KING⟩]⟩
      ⟨[⟨.HEARTS, .ACE⟩, ⟨.HEARTS, .QUEEN⟩]⟩
    rw [hs, h2 (by decide) (by decide)]

/-- C11: settled outcomes are terminal.  Called in a state other than `PLAYING`,
`GameState::checkState` returns that state and leaves `currentState` as it is, for
every pair of hands.  Within a round of `Game::play`, once the state is not `PLAYING`
after some events of the round, it is the same after any further events, and the game
that is returned holds the state reached at the end of the events. -/
theorem GameState.settled_is_terminal :
    (∀ (s : State) (player : Player) (dealer : Dealer), s ≠ State.PLAYING →
      GameState.checkState ⟨s⟩ player dealer = (⟨s⟩, s)) ∧
    (∀ (g : Game) (rnd : Nat → Nat) (input : List Char) (pre mid post : List Event),
      (Game.play g rnd input).trace = pre ++ mid ++ post →
      roundState pre ≠ State.PLAYING → roundState (pre ++ mid) = roundState pre) ∧
    (∀ (g : Game) (rnd : Nat → Nat) (input : List Char) (gf : Game),
      (Game.play g rnd input).result = .ok gf →
      gf.gameState.currentState = roundState (Game.play g rnd input).trace) := by
  refine ⟨fun s p d h => GameState.checkState_settled s p d h, ?_, ?_⟩
  · intro g rnd input
    obtain ⟨Q, hQ, hshape⟩ := Game.play_shape g rnd input
    exact (hshape.steady hQ).1
  · intro g rnd input
    obtain ⟨Q, hQ, hshape⟩ := Game.play_shape g rnd input
    exact (hshape.steady hQ).2

/-- Witness of C11: `checkState` in state `PLAYER_BUST` with a player total of 21 stays
`PLAYER_BUST`; and in the round with all random numbers 0 and the input `h`, `s` the
state is `PLAYER_BUST` after the first eight events and after all nine. -/
theorem GameState.settled_is_terminal_witness :
    GameState.checkState ⟨State.PLAYER_BUST⟩ ⟨[⟨.SPADES, .ACE⟩, ⟨.SPADES, .KING⟩]⟩ ⟨[]⟩ =
      (⟨State.PLAYER_BUST⟩, State.PLAYER_BUST) ∧
    roundState ((Game.play ⟨[], ⟨[]⟩, ⟨[]⟩, ⟨State.ROUND_END⟩⟩ (fun _ => 0) ['h', 's']).trace.take 8)
      = State.PLAYER_BUST ∧
    roundState
        ((Game.play ⟨[], ⟨[]⟩, ⟨[]⟩, ⟨State.ROUND_END⟩⟩ (fun _ => 0) ['h', 's']).trace.take 8 ++
          (Game.play ⟨[], ⟨[]⟩, ⟨[]⟩, ⟨State.ROUND_END⟩⟩ (fun _ => 0) ['h', 's']).trace.drop 8)
      = State.PLAYER_BUST := by
  have h8 : roundState
      ((Game.play ⟨[], ⟨[]⟩, ⟨[]⟩, ⟨State.ROUND_END⟩⟩ (fun _ => 0) ['h', 's']).trace.take 8)
        = State.PLAYER_BUST := by decide
  refine ⟨GameState.settled_is_terminal.1 _ _ _ (by decide), h8, ?_⟩
  rw [GameState.settled_is_terminal.2.1 ⟨[], ⟨[]⟩, ⟨[]⟩, ⟨State.ROUND_END⟩⟩ (fun _ => 0)
    ['h', 's'] _ _ [] (by simp) (by rw [h8]; decide), h8]

/-- C12: when the player stood and the dealer's turn completes with the rule of
`checkState` leaving the state `PLAYING`, the round is forced to `ROUND_END` and the
announcement compares the totals: the player wins iff the player's total is strictly
higher, the dealer wins iff the dealer's is, equal totals are a tie.  Ten and Nine
against Ten and Seven: the player wins 19 to 17, also as a whole round; 20 against
20: a tie, also as a whole round. -/
theorem Game.finish_compares_totals :
    (∀ (g : Game) (d' : Dealer) (deck' : Deck),
      g.gameState.currentState = State.PLAYING →
      Dealer.playTurn g.dealer g.deck = .ok (d', deck') →
      (GameState.checkState ⟨State.PLAYING⟩ g.player d').2 = State.PLAYING →
      ∃ a : Announcement,
        Game.finish g =
          ⟨g.dealerDraws ++
              [.dealerDone, .checked State.PLAYING, .forcedRoundEnd, .announced a],
            .ok ⟨deck', g.player, d', ⟨State.ROUND_END⟩⟩⟩ ∧
        (a = .playerWins g.player.getHandValue d'.getHandValue ↔
          g.player.getHandValue > d'.getHandValue) ∧
        (a = .dealerWins d'.getHandValue g.player.getHandValue ↔
          g.player.getHandValue < d'.getHandValue) ∧
        (a = .tie g.player.getHandValue ↔ g.player.getHandValue = d'.getHandValue)) ∧
    (∀ (deck : Deck) (s1 s2 s3 s4 : Suit),
      Game.finish ⟨deck, ⟨[⟨s1, .NINE⟩, ⟨s2, .TEN⟩]⟩, ⟨[⟨s3, .SEVEN⟩, ⟨s4, .TEN⟩]⟩,
          ⟨State.PLAYING⟩⟩ =
        ⟨[.dealerDone, .checked State.PLAYING, .forcedRoundEnd,
            .announced (.playerWins 19 17)],
          .ok ⟨deck, ⟨[⟨s1, .NINE⟩, ⟨s2, .TEN⟩]⟩, ⟨[⟨s3, .SEVEN⟩, ⟨s4, .TEN⟩]⟩,
            ⟨State.ROUND_END⟩⟩⟩) ∧
    (∀ (deck : Deck) (s1 s2 s3 s4 : Suit),
      Game.finish ⟨deck, ⟨[⟨s1, .JACK⟩, ⟨s2, .KING⟩]⟩, ⟨[⟨s3, .TEN⟩, ⟨s4, .QUEEN⟩]⟩,
          ⟨State.PLAYING⟩⟩ =
        ⟨[.dealerDone, .checked State.PLAYING, .forcedRoundEnd, .announced (.tie 20)],
          .ok ⟨deck, ⟨[⟨s1, .JACK⟩, ⟨s2, .KING⟩]⟩, ⟨[⟨s3, .TEN⟩, ⟨s4, .QUEEN⟩]⟩,
            ⟨State.ROUND_END⟩⟩⟩) ∧
    ((Game.play ⟨[], ⟨[]⟩, ⟨[]⟩, ⟨State.PLAYING⟩⟩ randTenNine ['s']).trace.drop 4 =
      [.checked State.PLAYING, .read 's', .dealerDone, .checked State.PLAYING,
        .forcedRoundEnd, .announced (.playerWins 19 17)]) ∧
    ((Game.play ⟨[], ⟨[]⟩, ⟨[]⟩, ⟨State.PLAYING⟩⟩ (fun _ => 0) ['s']).trace.drop 4 =
      [.checked State.PLAYING, .read 's', .dealerDone, .checked State.PLAYING,
        .forcedRoundEnd, .announced (.tie 20)]) := by
  refine ⟨fun g d' deck' hs hp hr => ?_, fun deck s1 s2 s3 s4 => ?_,
    fun deck s1 s2 s3 s4 => ?_, by decide, by decide⟩
  · have hfin := Game.finish_eq g d' deck' hs hp
    have hr' : ({ g with deck := deck', dealer := d' } : Game).ruleState = State.PLAYING := hr
    rw [if_pos hr'] at hfin
    refine ⟨GameState.announceState ⟨State.ROUND_END⟩ g.player d', hfin, ?_, ?_, ?_⟩
    all_goals
      simp only [GameState.announceState]
      split_ifs with h1 h2
      all_goals simp
      all_goals omega
  · rfl
  · rfl

/-- Witness of C12: the player stood on Ten and Nine, the dealer holds Ten and Seven
and draws nothing; the round is forced to `ROUND_END` and the player wins. -/
theorem Game.finish_compares_totals_witness :
    ∃ a : Announcement,
      Game.finish ⟨[], ⟨[⟨.SPADES, .NINE⟩, ⟨.SPADES, .TEN⟩]⟩,
          ⟨[⟨.HEARTS, .SEVEN⟩, ⟨.HEARTS, .TEN⟩]⟩, ⟨State.PLAYING⟩⟩ =
        ⟨[.dealerDone, .checked State.PLAYING, .forcedRoundEnd, .announced a],
          .ok ⟨[], ⟨[⟨.SPADES, .NINE⟩, ⟨.SPADES, .TEN⟩]⟩,
            ⟨[⟨.HEARTS, .SEVEN⟩, ⟨.HEARTS, .TEN⟩]⟩, ⟨State.ROUND_END⟩⟩⟩ ∧
      a = .playerWins 19 17 := by
  obtain ⟨a, h1, h2, -, -⟩ := Game.finish_compares_totals.1
    ⟨[], ⟨[⟨.SPADES, .NINE⟩, ⟨.SPADES, .TEN⟩]⟩, ⟨[⟨.HEARTS, .SEVEN⟩, ⟨.HEARTS, .TEN⟩]⟩,
      ⟨State.PLAYING⟩⟩
    ⟨[⟨.HEARTS, .SEVEN⟩, ⟨.HEARTS, .TEN⟩]⟩ [] rfl rfl rfl
  exact ⟨a, h1, h2.mpr (by decide)⟩

/-- C13: when the first and the third card of the shuffled deck total 21, `Game::play`
ends the round in `PLAYER_BLACKJACK` right after the initial deal: the events of the
round are the four deals, the check and the announcement; no character is read, no
further card is dealt and the dealer's turn is not run, whatever the dealer holds. -/
theorem Game.play_player_blackjack (g : Game) (rnd : Nat → Nat) (input : List Char)
    (c1 c2 c3 c4 : Card) (rest : List Card)
    (hshuf : Deck.shuffle rnd (Deck.reset g.deck) = .ok (c1 :: c2 :: c3 :: c4 :: rest))
    (h21 : Hand.getValue [c3, c1] = 21) :
    Game.play g rnd input =
      ⟨[.dealtPlayer ⟨c2 :: c3 :: c4 :: rest, ⟨[c1]⟩, ⟨[]⟩, ⟨State.PLAYING⟩⟩,
        .dealtDealer ⟨c3 :: c4 :: rest, ⟨[c1]⟩, ⟨[c2]⟩, ⟨State.PLAYING⟩⟩,
        .dealtPlayer ⟨c4 :: rest, ⟨[c3, c1]⟩, ⟨[c2]⟩, ⟨State.PLAYING⟩⟩,
        .dealtDealer ⟨rest, ⟨[c3, c1]⟩, ⟨[c4, c2]⟩, ⟨State.PLAYING⟩⟩,
        .checked State.PLAYER_BLACKJACK, .announced .playerBlackjack],
       .ok ⟨rest, ⟨[c3, c1]⟩, ⟨[c4, c2]⟩, ⟨State.PLAYER_BLACKJACK⟩⟩⟩ ∧
    (∀ c : Char, Event.read c ∉ (Game.play g rnd input).trace) ∧
    Event.dealerDone ∉ (Game.play g rnd input).trace := by
  have hr : (Game.afterDeal c1 c2 c3 c4 rest).ruleState = State.PLAYER_BLACKJACK := by
    have h : (Game.afterDeal c1 c2 c3 c4 rest).player.getHandValue = 21 := h21
    simp [Game.ruleState, GameState.checkState, h]
  have hplay : Game.play g rnd input =
      ⟨[.dealtPlayer ⟨c2 :: c3 :: c4 :: rest, ⟨[c1]⟩, ⟨[]⟩, ⟨State.PLAYING⟩⟩,
        .dealtDealer ⟨c3 :: c4 :: rest, ⟨[c1]⟩, ⟨[c2]⟩, ⟨State.PLAYING⟩⟩,
        .dealtPlayer ⟨c4 :: rest, ⟨[c3, c1]⟩, ⟨[c2]⟩, ⟨State.PLAYING⟩⟩,
        .dealtDealer ⟨rest, ⟨[c3, c1]⟩, ⟨[c4, c2]⟩, ⟨State.PLAYING⟩⟩,
        .checked State.PLAYER_BLACKJACK, .announced .playerBlackjack],
       .ok ⟨rest, ⟨[c3, c1]⟩, ⟨[c4, c2]⟩, ⟨State.PLAYER_BLACKJACK⟩⟩⟩ := by
    rw [Game.play_eq g rnd input c1 c2 c3 c4 rest hshuf, hr, if_pos (by decide)]
    rfl
  refine ⟨hplay, ?_, ?_⟩
  · intro c; rw [hplay]; simp
  · rw [hplay]; simp

/-- Witness of C13: with `randBlackjack` the shuffled deck starts with the Ace, the
Queen, the King and the Jack of Spades, and the round ends after six events. -/
theorem Game.play_player_blackjack_witness :
    Hand.getValue [⟨.SPADES, .KING⟩, ⟨.SPADES, .ACE⟩] = 21 ∧
    (Game.play ⟨[], ⟨[]⟩, ⟨[]⟩, ⟨State.PLAYING⟩⟩ randBlackjack ['h', 'h', 's']).trace.length = 6 ∧
    (Game.play ⟨[], ⟨[]⟩, ⟨[]⟩, ⟨State.PLAYING⟩⟩ randBlackjack ['h', 'h', 's']).result =
      .ok ⟨(Deck.reset []).drop 4, ⟨[⟨.SPADES, .KING⟩, ⟨.SPADES, .ACE⟩]⟩,
        ⟨[⟨.SPADES, .JACK⟩, ⟨.SPADES, .QUEEN⟩]⟩, ⟨State.PLAYER_BLACKJACK⟩⟩ := by
  have h := (Game.play_player_blackjack ⟨[], ⟨[]⟩, ⟨[]⟩, ⟨State.PLAYING⟩⟩ randBlackjack
    ['h', 'h', 's'] ⟨.SPADES, .ACE⟩ ⟨.SPADES, .QUEEN⟩ ⟨.SPADES, .KING⟩ ⟨.SPADES, .JACK⟩
    ((Deck.reset []).drop 4) (by rfl) (by decide)).1
  exact ⟨by decide, by rw [h]; rfl, by rw [h]⟩

/-- C14: the initial deal.  Whatever the game held before, `Game::play` shuffles the
reset deck into some `c1, c2, c3, c4` followed by 48 cards, and its first four events
are the deals of `c1` to the player, `c2` to the dealer, `c3` to the player and `c4`
to the dealer; after them the player holds exactly `c1` and `c3`, the dealer exactly
`c2` and `c4`, and the deck is the remaining 48 cards in unchanged order. -/
theorem Game.play_initial_deal (g : Game) (rnd : Nat → Nat) (input : List Char) :
    ∃ (c1 c2 c3 c4 : Card) (rest : List Card) (later : List Event),
      Deck.shuffle rnd (Deck.reset g.deck) = .ok (c1 :: c2 :: c3 :: c4 :: rest) ∧
      rest.length = 48 ∧
      Exec.andThen (Game.setup g rnd) Game.initialDeal =
        ⟨Game.initialDealTrace c1 c2 c3 c4 rest,
          .ok ⟨rest, ⟨[c3, c1]⟩, ⟨[c4, c2]⟩, ⟨State.PLAYING⟩⟩⟩ ∧
      (Game.play g rnd input).trace =
        [.dealtPlayer ⟨c2 :: c3 :: c4 :: rest, ⟨[c1]⟩, ⟨[]⟩, ⟨State.PLAYING⟩⟩,
         .dealtDealer ⟨c3 :: c4 :: rest, ⟨[c1]⟩, ⟨[c2]⟩, ⟨State.PLAYING⟩⟩,
         .dealtPlayer ⟨c4 :: rest, ⟨[c3, c1]⟩, ⟨[c2]⟩, ⟨State.PLAYING⟩⟩,
         .dealtDealer ⟨rest, ⟨[c3, c1]⟩, ⟨[c4, c2]⟩, ⟨State.PLAYING⟩⟩] ++ later := by
  obtain ⟨c1, c2, c3, c4, rest, hshuf, hlen, -⟩ := Deck.shuffle_reset rnd g.deck
  have hsetup : Game.setup g rnd =
      ⟨[], .ok ⟨c1 :: c2 :: c3 :: c4 :: rest, ⟨[]⟩, ⟨[]⟩, ⟨State.PLAYING⟩⟩⟩ := by
    simp [Game.setup, hshuf, Hand.clear]
  have hplay := Game.play_eq g rnd input c1 c2 c3 c4 rest hshuf
  by_cases hr : (Game.afterDeal c1 c2 c3 c4 rest).ruleState = State.PLAYING
  · rw [if_neg (by simpa using hr)] at hplay
    refine ⟨c1, c2, c3, c4, rest,
      [.checked State.PLAYING] ++ (Game.turns (Game.afterDeal c1 c2 c3 c4 rest) input).trace,
      hshuf, hlen, ?_, ?_⟩
    · rw [hsetup, Exec.andThen_ok, Game.initialDeal_eq]; rfl
    · rw [hplay]
      simp only [Game.initialDealTrace, List.append_assoc]
  · rw [if_pos (by simpa using hr)] at hplay
    refine ⟨c1, c2, c3, c4, rest,
      [.checked (Game.afterDeal c1 c2 c3 c4 rest).ruleState,
        .announced (GameState.announceState
          ⟨(Game.afterDeal c1 c2 c3 c4 rest).ruleState⟩ ⟨[c3, c1]⟩ ⟨[c4, c2]⟩)],
      hshuf, hlen, ?_, ?_⟩
    · rw [hsetup, Exec.andThen_ok, Game.initialDeal_eq]; rfl
    · rw [hplay]
      simp only [Game.initialDealTrace]

/-- C15: the deck is never exhausted in a round.  A deal statement faults exactly when
the deck is empty, and `Game::play` never faults, for every outcome of the shuffle and
every input: it returns, or it waits for input that does not come. -/
theorem Game.play_never_exhausts_deck :
    (∀ g : Game, (Game.dealPlayer g).result = .error .nullDeref ↔ g.deck = []) ∧
    (∀ g : Game, (Game.dealDealer g).result = .error .nullDeref ↔ g.deck = []) ∧
    (∀ g : Game, (Game.hit g).result = .error .nullDeref ↔ g.deck = []) ∧
    (∀ (g : Game) (rnd : Nat → Nat) (input : List Char),
      (∃ gf : Game, (Game.play g rnd input).result = .ok gf) ∨
      (Game.play g rnd input).result = .error .noInput) := by
  refine ⟨fun g => ?_, fun g => ?_, fun g => ?_, fun g rnd input => ?_⟩
  · rcases g with ⟨deck, p, d, gs⟩
    cases deck <;> simp [Game.dealPlayer, Deck.deal, Hand.addCard]
  · rcases g with ⟨deck, p, d, gs⟩
    cases deck <;> simp [Game.dealDealer, Deck.deal, Hand.addCard]
  · rcases g with ⟨deck, p, d, gs⟩
    cases deck <;> simp [Game.hit, Player.hit, Deck.deal, Hand.addCard]
  · obtain ⟨Q, -, hcase⟩ := Game.play_shape g rnd input
    rcases hcase with hc | ⟨gf, ⟨hc, -⟩ | ⟨hc, -⟩⟩
    · right; rw [hc]
    · left; exact ⟨gf, by rw [hc]⟩
    · left; exact ⟨gf, by rw [hc]⟩

/-- C16: `Deck::shuffle` is a Fisher-Yates shuffle of a full deck.  Its loop runs `i`
from 51 down to 1 and swaps position `i` with the position `j = rand() % (i + 1)`,
which lies in `[0, i]`, and every sequence of such indices occurs for some values of
`rand()`.  On a deck of 52 cards the result is a permutation of the deck; on 52
distinct cards two runs with the same result used the same index at every `i`, and
every permutation of the deck is the result of some run.  So the index sequences
correspond one to one to the permutations, and uniform indices give each permutation
the same chance. -/
theorem Deck.shuffle_fisher_yates :
    (∀ (rnd : Nat → Nat) (cards : List (Option Card)),
      Deck.shuffleLoop rnd (DECK_SIZE - 1) cards =
        ((List.range 51).map (fun k => 51 - k)).foldl
          (fun cs i => Deck.swapSlots cs i (rnd (51 - i) % (i + 1))) cards) ∧
    (∀ (rnd : Nat → Nat) (i : Nat), rnd (51 - i) % (i + 1) ≤ i) ∧
    (∀ js : Nat → Nat, (∀ i, js i ≤ i) →
      ∃ rnd : Nat → Nat, ∀ i, i ≤ 51 → rnd (51 - i) % (i + 1) = js i) ∧
    (∀ (deck : Deck) (rnd : Nat → Nat), deck.length = 52 →
      ∃ deck' : Deck, Deck.shuffle rnd deck = .ok deck' ∧ deck'.Perm deck) ∧
    (∀ (deck : Deck) (rnd rnd' : Nat → Nat), deck.length = 52 → deck.Nodup →
      Deck.shuffle rnd deck = Deck.shuffle rnd' deck →
      ∀ i, 1 ≤ i → i ≤ 51 → rnd (51 - i) % (i + 1) = rnd' (51 - i) % (i + 1)) ∧
    (∀ deck target : Deck, deck.length = 52 → target.Perm deck →
      ∃ rnd : Nat → Nat, Deck.shuffle rnd deck = .ok target) := by
  refine ⟨fun rnd cards => ?_, fun rnd i => Deck.swapIndex_le rnd i, fun js hjs => ?_,
    fun deck rnd hlen => Deck.shuffle_full rnd deck hlen, ?_, ?_⟩
  · rw [Deck.shuffleLoop_eq_swapLoop, Deck.swapLoop_eq_foldl]
    rfl
  · refine ⟨fun k => js (51 - k), fun i hi => ?_⟩
    have : 51 - (51 - i) = i := by omega
    show js (51 - (51 - i)) % (i + 1) = js i
    rw [this]
    exact Nat.mod_eq_of_lt (Nat.lt_succ_of_le (hjs i))
  · intro deck rnd rnd' hlen hnd heq i h1 h2
    obtain ⟨d, hd, -⟩ := Deck.shuffle_full rnd deck hlen
    have hd' : Deck.shuffle rnd' deck = .ok d := by rw [← heq, hd]
    rw [Deck.shuffle_eq_ok_iff rnd deck d hlen] at hd
    rw [Deck.shuffle_eq_ok_iff rnd' deck d hlen] at hd'
    exact Deck.swapLoop_injective 51 (deck.map some) (by simp [hlen])
      (hnd.map (Option.some_injective _)) _ _ (Deck.swapIndex_le rnd) (Deck.swapIndex_le rnd')
      (hd.trans hd'.symm) i h1 h2
  · intro deck target hlen hperm
    obtain ⟨js, hjs, hloop⟩ := Deck.swapLoop_surjective 51 (deck.map some) (target.map some)
      (by simp [hlen]) (hperm.map some)
    refine ⟨fun k => js (51 - k), ?_⟩
    rw [Deck.shuffle_eq_ok_iff _ deck target hlen, ← hloop]
    refine Deck.swapLoop_congr _ _ _ _ (fun k _ hk => ?_)
    have : DECK_SIZE - 1 - k = 51 - k := rfl
    simp only [Deck.swapIndex, this]
    have : 51 - (51 - k) = k := by
      have : k ≤ 51 := hk
      omega
    rw [this]
    exact Nat.mod_eq_of_lt (Nat.lt_succ_of_le (hjs k))

/-- Witness of C16 on the freshly reset deck: some run of the shuffle reverses it,
and the runs with `rand()` always 0 and with `rand()` giving 52, 51, 50, ... on its
calls have the same result and the same swap index at `i = 51`. -/
theorem Deck.shuffle_fisher_yates_witness :
    (∃ rnd : Nat → Nat, Deck.shuffle rnd (Deck.reset []) = .ok (Deck.reset []).reverse) ∧
    Deck.shuffle (fun _ => 0) (Deck.reset []) = Deck.shuffle (fun k => 52 - k) (Deck.reset []) ∧
    (fun _ => 0 : Nat → Nat) (51 - 51) % (51 + 1) = (fun k => 52 - k : Nat → Nat) (51 - 51) % (51 + 1) := by
  have hsame : Deck.shuffle (fun _ => 0) (Deck.reset []) =
      Deck.shuffle (fun k => 52 - k) (Deck.reset []) := by rfl
  exact ⟨Deck.shuffle_fisher_yates.2.2.2.2.2 (Deck.reset []) _ (by decide)
      (List.reverse_perm _),
    hsame,
    Deck.shuffle_fisher_yates.2.2.2.2.1 (Deck.reset []) (fun _ => 0) (fun k => 52 - k)
      (by decide) (by decide) hsame 51 (by decide) (by decide)⟩

/-- C17: `ROUND_END` is reached only after both turns.  If `Game::play` returns in
state `ROUND_END`, the player stood, the dealer's turn ran to its end, the player's
total is at most 20 and the dealer's total lies in `17..20`. -/
theorem Game.play_round_end (g : Game) (rnd : Nat → Nat) (input : List Char) (gf : Game)
    (hres : (Game.play g rnd input).result = .ok gf)
    (hend : gf.gameState.currentState = State.ROUND_END) :
    Event.read 's' ∈ (Game.play g rnd input).trace ∧
    Event.dealerDone ∈ (Game.play g rnd input).trace ∧
    gf.player.getHandValue ≤ 20 ∧
    17 ≤ gf.dealer.getHandValue ∧ gf.dealer.getHandValue ≤ 20 := by
  obtain ⟨Q, -, hcase⟩ := Game.play_shape g rnd input
  rcases hcase with hc | ⟨gf', ⟨hc, h1, h2⟩ | ⟨hc, h1, h2, h3, h4, h5⟩⟩
  · rw [hc] at hres; simp at hres
  · rw [hc] at hres
    simp only [Except.ok.injEq] at hres
    subst hres
    exact absurd (h2.symm.trans hend) (Game.ruleState_ne_roundEnd gf')
  · rw [hc] at hres ⊢
    simp only [Except.ok.injEq] at hres
    subst hres
    have := (Game.ruleState_eq_playing_iff gf').mp h1
    exact ⟨by simp [h3], by simp [h4], this.1, h5, this.2⟩

/-- Witness of C17: the round with all random numbers 0 and the input `s` returns in
`ROUND_END` with King and Jack against Queen and Ten. -/
theorem Game.play_round_end_witness :
    Event.read 's' ∈ (Game.play ⟨[], ⟨[]⟩, ⟨[]⟩, ⟨State.PLAYING⟩⟩ (fun _ => 0) ['s']).trace ∧
    Event.dealerDone ∈ (Game.play ⟨[], ⟨[]⟩, ⟨[]⟩, ⟨State.PLAYING⟩⟩ (fun _ => 0) ['s']).trace ∧
    Player.getHandValue ⟨[⟨.SPADES, .JACK⟩, ⟨.SPADES, .KING⟩]⟩ ≤ 20 ∧
    17 ≤ Dealer.getHandValue ⟨[⟨.SPADES, .TEN⟩, ⟨.SPADES, .QUEEN⟩]⟩ ∧
    Dealer.getHandValue ⟨[⟨.SPADES, .TEN⟩, ⟨.SPADES, .QUEEN⟩]⟩ ≤ 20 :=
  Game.play_round_end ⟨[], ⟨[]⟩, ⟨[]⟩, ⟨State.PLAYING⟩⟩ (fun _ => 0) ['s']
    ⟨(Deck.reset []).drop 5 ++ [⟨.SPADES, .ACE⟩],
      ⟨[⟨.SPADES, .JACK⟩, ⟨.SPADES, .KING⟩]⟩, ⟨[⟨.SPADES, .TEN⟩, ⟨.SPADES, .QUEEN⟩]⟩,
      ⟨State.ROUND_END⟩⟩ (by rfl) rfl

/-- C18: `Hand::getValue` is the best Blackjack score of the hand.  If some choice of
1 or 11 for each Ace gives a total of at most 21, `getValue` is the largest such
total; otherwise it is the total with every Ace counted as 1, the smallest total of
all.  So `getValue` is above 21 exactly when the hand busts under every choice. -/
theorem Hand.getValue_best_score (hand : Hand) :
    (∃ choices : List Bool, Hand.totalWith hand choices = Hand.getValue hand) ∧
    ((∃ choices : List Bool, Hand.totalWith hand choices ≤ 21) →
      Hand.getValue hand ≤ 21 ∧
      ∀ choices : List Bool, Hand.totalWith hand choices ≤ 21 →
        Hand.totalWith hand choices ≤ Hand.getValue hand) ∧
    ((∀ choices : List Bool, 21 < Hand.totalWith hand choices) →
      Hand.getValue hand = Hand.totalWith hand (List.replicate hand.length true) ∧
      ∀ choices : List Bool, Hand.getValue hand ≤ Hand.totalWith hand choices) ∧
    (21 < Hand.getValue hand ↔ ∀ choices : List Bool, 21 < Hand.totalWith hand choices) := by
  obtain ⟨k, hk, hval, hmin, hor⟩ := Hand.softenLoop_spec (aceCount hand) (baseSum hand)
  rw [← Hand.getValue_eq] at hval
  have hach : Hand.totalWith hand (Hand.lowFirst hand k) = Hand.getValue hand := by
    rw [Hand.totalWith_eq, Hand.lowAces_lowFirst hand k hk, hval]
  have hle : ∀ choices : List Bool, Hand.totalWith hand choices ≤ 21 →
      Hand.totalWith hand choices ≤ Hand.getValue hand := by
    intro choices h21
    rw [Hand.totalWith_eq] at h21 ⊢
    by_contra hcon
    have hlt : Hand.lowAces hand choices < k := by rw [hval] at hcon; omega
    have := hmin _ hlt
    omega
  have hall : Hand.lowAces hand (List.replicate hand.length true) = aceCount hand := by
    clear hk hval hmin hor hach hle
    induction hand with
    | nil => simp [Hand.lowAces, aceCount]
    | cons c cs ih =>
      rw [aceCount_cons, List.length_cons, List.replicate_succ, Hand.lowAces]
      simp only [List.headD_cons, List.tail_cons, and_true]
      rw [ih]; omega
  have hbust : 21 < Hand.getValue hand → ∀ choices : List Bool,
      Hand.getValue hand ≤ Hand.totalWith hand choices := by
    intro hb choices
    have hka : k = aceCount hand := by
      rcases hor with hor | hor
      · rw [hval] at hb; omega
      · exact hor
    have := Hand.lowAces_le hand choices
    rw [Hand.totalWith_eq, hval, hka]
    have : (Hand.lowAces hand choices : Int) ≤ (aceCount hand : Int) := by exact_mod_cast this
    omega
  refine ⟨⟨_, hach⟩, ?_, ?_, ?_⟩
  · rintro ⟨choices, hc⟩
    have := hle choices hc
    exact ⟨by
      by_contra hcon
      have := hbust (by omega) choices
      omega, hle⟩
  · intro hallbust
    have hb : 21 < Hand.getValue hand := by rw [← hach]; exact hallbust _
    refine ⟨?_, hbust hb⟩
    have hka : k = aceCount hand := by
      rcases hor with hor | hor
      · rw [hval] at hb; omega
      · exact hor
    rw [Hand.totalWith_eq, hall, hval, hka]
  · constructor
    · intro hb choices
      have := hbust hb choices
      omega
    · intro hallbust
      rw [← hach]; exact hallbust _

/-- Witness of C18: Ace, Ace, Nine has a choice with total 21, and `getValue` is at
least the total of that choice; King, Queen, Five busts under every choice and
`getValue` is its total with every Ace counted as 1. -/
theorem Hand.getValue_best_score_witness :
    (Hand.getValue [⟨.SPADES, .ACE⟩, ⟨.HEARTS, .ACE⟩, ⟨.CLUBS, .NINE⟩] ≤ 21 ∧
      Hand.totalWith [⟨.SPADES, .ACE⟩, ⟨.HEARTS, .ACE⟩, ⟨.CLUBS, .NINE⟩] [true, false] ≤
        Hand.getValue [⟨.SPADES, .ACE⟩, ⟨.HEARTS, .ACE⟩, ⟨.CLUBS, .NINE⟩]) ∧
    Hand.getValue [⟨.SPADES, .KING⟩, ⟨.HEARTS, .QUEEN⟩, ⟨.CLUBS, .FIVE⟩] =
      Hand.totalWith [⟨.SPADES, .KING⟩, ⟨.HEARTS, .QUEEN⟩, ⟨.CLUBS, .FIVE⟩]
        (List.replicate 3 true) := by
  have h1 := (Hand.getValue_best_score
    [⟨.SPADES, .ACE⟩, ⟨.HEARTS, .ACE⟩, ⟨.CLUBS, .NINE⟩]).2.1 ⟨[true, false], by decide⟩
  have h2 := (Hand.getValue_best_score
    [⟨.SPADES, .KING⟩, ⟨.HEARTS, .QUEEN⟩, ⟨.CLUBS, .FIVE⟩]).2.2.1
      (fun choices => by simp [Hand.totalWith, Card.getValue, Rank.toInt])
  exact ⟨⟨h1.1, h1.2 [true, false] (by decide)⟩, h2.1⟩

/-- C19: `Dealer::playTurn` ends after a bounded number of draws.  For every dealer
hand and every deck of at least 17 cards it returns after drawing `n` cards with
`n` at most 17, and when it drew at least one card the final total lies in `17..26`.
The total it tests is not monotone: Ace and Five make 16, with a Six added 12. -/
theorem Dealer.playTurn_bounded_draws :
    (∀ (dealer : Dealer) (deck : Deck), 17 ≤ deck.length →
      ∃ (n : Nat) (d' : Dealer) (deck' : Deck), n ≤ 17 ∧
        Dealer.playTurn dealer deck = .ok (d', deck') ∧
        (Dealer.playTurnDraws dealer deck).length = n ∧
        d'.hand = Dealer.handAfter dealer deck n ∧ deck' = deck.drop n ∧
        (0 < n → 17 ≤ d'.getHandValue ∧ d'.getHandValue ≤ 26)) ∧
    (∀ s1 s2 s3 : Suit,
      Hand.getValue [⟨s2, .FIVE⟩, ⟨s1, .ACE⟩] = 16 ∧
      Hand.getValue [⟨s3, .SIX⟩, ⟨s2, .FIVE⟩, ⟨s1, .ACE⟩] = 12) := by
  refine ⟨fun dealer deck hlen => ?_, fun _ _ _ => ⟨rfl, rfl⟩⟩
  obtain ⟨draws, d', deck', hloop⟩ :=
    Dealer.playTurnLoop_reaches (deck.length + 1) dealer deck 17 hlen (by omega)
      (le_trans (by simp [Dealer.handAfter, List.length_take, hlen])
        (Hand.length_le_getValue _))
  obtain ⟨n, hn, -, hh, hdk, h17, hlt, hdr⟩ :=
    Dealer.playTurnLoop_ok _ _ _ _ _ _ hloop
  have hn17 : n ≤ 17 := by
    by_contra hcon
    have h16 := hlt 17 (by omega)
    have := Hand.length_le_getValue (Dealer.handAfter dealer deck 17)
    have hl : 17 ≤ (Dealer.handAfter dealer deck 17).length := by
      simp only [Dealer.handAfter, List.length_append, List.length_reverse, List.length_take]
      omega
    omega
  refine ⟨n, d', deck', hn17, by simp [Dealer.playTurn, hloop], ?_, hh, hdk, fun hpos => ?_⟩
  · simp [Dealer.playTurnDraws, hloop, hdr, Dealer.drawStates]
  · refine ⟨h17, ?_⟩
    obtain ⟨m, rfl⟩ : ∃ m, n = m + 1 := ⟨n - 1, by omega⟩
    have h16 := hlt m (by omega)
    obtain ⟨c, hc⟩ : ∃ c, Dealer.handAfter dealer deck (m + 1) =
        c :: Dealer.handAfter dealer deck m := by
      have hm : m < deck.length := by omega
      refine ⟨deck[m], ?_⟩
      simp only [Dealer.handAfter]
      rw [List.take_succ, List.getElem?_eq_getElem hm, Option.toList, List.reverse_append]
      rfl
    rw [Dealer.getHandValue, hh, hc]
    exact Hand.getValue_cons_le c _ (by omega)

/-- Witness of C19: a dealer with Five and Six in front of the freshly reset deck of
52 cards draws twice and ends with a total in `17..26`. -/
theorem Dealer.playTurn_bounded_draws_witness :
    (Dealer.playTurnDraws ⟨[⟨.HEARTS, .FIVE⟩, ⟨.HEARTS, .SIX⟩]⟩ (Deck.reset [])).length = 2 ∧
    ∃ (d' : Dealer) (deck' : Deck),
      Dealer.playTurn ⟨[⟨.HEARTS, .FIVE⟩, ⟨.HEARTS, .SIX⟩]⟩ (Deck.reset []) = .ok (d', deck') ∧
      17 ≤ d'.getHandValue ∧ d'.getHandValue ≤ 26 := by
  have h2 : (Dealer.playTurnDraws ⟨[⟨.HEARTS, .FIVE⟩, ⟨.HEARTS, .SIX⟩]⟩
      (Deck.reset [])).length = 2 := by decide
  obtain ⟨n, d', deck', -, hp, hlen, -, -, hb⟩ := Dealer.playTurn_bounded_draws.1
    ⟨[⟨.HEARTS, .FIVE⟩, ⟨.HEARTS, .SIX⟩]⟩ (Deck.reset []) (by decide)
  exact ⟨h2, d', deck', hp, hb (by omega)⟩

/-- C20: the final state of a round agrees with the final hands.  Whenever
`Game::play` returns, the state is not `PLAYING` and it is the state that the rule of
`checkState` assigns to the final hands, with `PLAYING` replaced by `ROUND_END`; so
`PLAYER_BUST` means a player total above 21, `DEALER_BUST` a dealer total above 21 and
a player total of at most 20, `PLAYER_BLACKJACK` a player total of 21, and
`DEALER_BLACKJACK` a dealer total of 21 and a player total other than 21.  The round
does return whenever the input holds an `s`. -/
theorem Game.play_final_state (g : Game) (rnd : Nat → Nat) (input : List Char) :
    (∀ gf : Game, (Game.play g rnd input).result = .ok gf →
      gf.gameState.currentState ≠ State.PLAYING ∧
      gf.gameState.currentState =
        (if (GameState.checkState ⟨State.PLAYING⟩ gf.player gf.dealer).2 = State.PLAYING
          then State.ROUND_END
          else (GameState.checkState ⟨State.PLAYING⟩ gf.player gf.dealer).2) ∧
      (gf.gameState.currentState = State.PLAYER_BUST → gf.player.getHandValue > 21) ∧
      (gf.gameState.currentState = State.DEALER_BUST →
        gf.dealer.getHandValue > 21 ∧ gf.player.getHandValue ≤ 20) ∧
      (gf.gameState.currentState = State.PLAYER_BLACKJACK → gf.player.getHandValue = 21) ∧
      (gf.gameState.currentState = State.DEALER_BLACKJACK →
        gf.dealer.getHandValue = 21 ∧ gf.player.getHandValue ≠ 21)) ∧
    ('s' ∈ input → ∃ gf : Game, (Game.play g rnd input).result = .ok gf) := by
  refine ⟨fun gf hres => ?_, Game.play_returns g rnd input⟩
  have hrule : (GameState.checkState ⟨State.PLAYING⟩ gf.player gf.dealer).2 = gf.ruleState := rfl
  rw [hrule]
  obtain ⟨Q, -, hcase⟩ := Game.play_shape g rnd input
  rcases hcase with hc | ⟨gf', ⟨hc, h1, h2⟩ | ⟨hc, h1, h2, -⟩⟩
  · rw [hc] at hres; simp at hres
  · rw [hc] at hres
    simp only [Except.ok.injEq] at hres
    subst hres
    rw [h2, if_neg h1]
    rcases Game.ruleState_cases gf' with h | h | h | h | h
    all_goals simp [h.1, h.2] at h1 ⊢
  · rw [hc] at hres
    simp only [Except.ok.injEq] at hres
    subst hres
    rw [h2, if_pos h1]
    simp

/-- Witness of C20: the round with all random numbers 0 and the input `h`, `s` returns
in `PLAYER_BUST` with a player total of 29. -/
theorem Game.play_final_state_witness :
    Player.getHandValue ⟨[⟨.SPADES, .NINE⟩, ⟨.SPADES, .JACK⟩, ⟨.SPADES, .KING⟩]⟩ > 21 ∧
    ∃ gf : Game,
      (Game.play ⟨[], ⟨[]⟩, ⟨[]⟩, ⟨State.PLAYING⟩⟩ (fun _ => 0) ['h', 's']).result = .ok gf := by
  have h := Game.play_final_state ⟨[], ⟨[]⟩, ⟨[]⟩, ⟨State.PLAYING⟩⟩ (fun _ => 0) ['h', 's']
  have hb := (h.1 ⟨(Deck.reset []).drop 6 ++ [⟨.SPADES, .ACE⟩],
      ⟨[⟨.SPADES, .NINE⟩, ⟨.SPADES, .JACK⟩, ⟨.SPADES, .KING⟩]⟩,
      ⟨[⟨.SPADES, .TEN⟩, ⟨.SPADES, .QUEEN⟩]⟩, ⟨State.PLAYER_BUST⟩⟩ (by rfl)).2.2.1 rfl
  exact ⟨hb, h.2 (by decide)⟩

end Blackjack
